import Mathlib

/-!
Verification of the constraint-system solver and dependency-scheduling core of
the `nume-crypto/gnark` repository.

The development shallowly embeds, over a prime field `ZMod p`:

* the PLONK-style sparse constraint solver (`SparseR1CS.Solve`,
  `parallelSolve`, `computeHints`, `solveConstraint`, `checkConstraint`, from
  the generated `cs` back-end file);
* the leveled DAG scheduler (`DAG.Levels` from `internal/dag/dag.go`), with the
  concurrent wavefront rendered as a sequential pass over the round's work list
  that is quantified over arbitrary scheduling permutations;
* the PLONK setup permutation builder (`buildPermutation` from
  `internal/backend/bw6-761/plonk/setup.go`).

Go conventions mirrored here: dynamic arrays are lists read through `getD`
(Go's in-bounds indexing; out-of-range reads yield the zero value only where Go
itself cannot reach them), Go `error` returns are the `.err` constructor of
`Res`, and Go `panic` is the `.panicked` constructor.  The field inverse is the
external library's convention `0⁻¹ = 0` (gnark-crypto `Element.Inverse`),
realised computably as `x ^ (p - 2)`.
-/

namespace Gnark

/-- Field inverse as provided by the external field library (gnark-crypto
`Element.Inverse`): the multiplicative inverse for non-zero elements, and `0`
maps to `0` by convention.  Realised as `x ^ (p - 2)`, which agrees with the
field inverse for every prime `p > 2` (all six supported curves have large
prime moduli). -/
def finv (p : ℕ) (x : ZMod p) : ZMod p := x ^ (p - 2)

/-- Field division `x · y⁻¹` with the `0⁻¹ = 0` convention (gnark-crypto
`Element.Div`, which inverts then multiplies). -/
def fdiv (p : ℕ) (x y : ZMod p) : ZMod p := x * finv p y

/-- For an odd prime modulus, `finv` is the field inverse of `ZMod p`. -/
theorem finv_eq_inv (p : ℕ) [Fact p.Prime] (hp : 2 < p) (x : ZMod p) : finv p x = x⁻¹ := by
  by_cases hx : x = 0
  · subst hx
    rw [finv, zero_pow (by omega), inv_zero]
  · have h2 : x * x ^ (p - 2) = 1 := by
      have hs : p - 2 + 1 = p - 1 := by omega
      calc x * x ^ (p - 2) = x ^ (p - 2 + 1) := (pow_succ' x (p - 2)).symm
        _ = x ^ (p - 1) := by rw [hs]
        _ = 1 := ZMod.pow_card_sub_one_eq_one hx
    exact eq_inv_of_mul_eq_one_right h2

/-- A term `(coeffID, wireID)`: the product `coefficients[coeffID] ·
values[wireID]` (`compiled.Term`; the visibility tag plays no role in the
solver and is omitted). -/
structure Term where
  coeffID : ℕ
  wireID : ℕ
deriving DecidableEq

/-- A sparse (PLONK-style) constraint `qL·xL + qR·xR + qO·xO + qM·(xM0·xM1) +
qK = 0` (`compiled.SparseR1C`). -/
structure SparseR1C where
  L : Term
  R : Term
  O : Term
  M : Term × Term
  K : ℕ
deriving DecidableEq

/-- Zero value of `SparseR1C` (Go's zero value, used for the unreachable
out-of-range constraint read). -/
def defaultC : SparseR1C := ⟨⟨0, 0⟩, ⟨0, 0⟩, ⟨0, 0⟩, (⟨0, 0⟩, ⟨0, 0⟩), 0⟩

/-- Modelled from the spec: a hint binding (§3, `compiled.Hint` is not among
the source files) — a `(hintID, input terms, output wireIDs)` record attached
to an internal wire. -/
structure HintBinding where
  hintID : ℕ
  inputs : List Term
  outputs : List ℕ
deriving DecidableEq

/-- Modelled from the spec: the recognized prover options (§6,
`backend.ProverConfig` is not among the source files): registered hint
callbacks and the `force` flag.  A callback takes the evaluated inputs and
either fails or returns the outputs. -/
structure ProverConfig (p : ℕ) where
  hintFunctions : ℕ → Option (List (ZMod p) → Option (List (ZMod p)))
  force : Bool

/-- The compiled sparse constraint system handed to the solver
(`cs.SparseR1CS` plus the `compiled.SparseR1CS` fields it embeds). -/
structure SparseR1CS (p : ℕ) where
  nbPublicVariables : ℕ
  nbSecretVariables : ℕ
  nbInternalVariables : ℕ
  coefficients : List (ZMod p)
  constraints : List SparseR1C
  levels : List (List ℕ)
  mHints : List (ℕ × HintBinding)

/-- Go errors surfaced by the solver (§7 taxonomy).  `unsatisfiedConstraint`
is `UnsatisfiedConstraintError{CID}`; the attached inner error / debug message
is elided.  `unsolvedWires` is the spec's post-condition error — it is part of
the error vocabulary so that claims about it can be stated. -/
inductive GoErr where
  | witnessSize (got expected : ℕ)
  | unsatisfiedConstraint (cid : ℕ)
  | unsolvedWires (count : ℕ)
  | hintNotRegistered (hintID : ℕ)
  | hintInputUnsolved (wireID : ℕ)
  | hintOutputArity (expected got : ℕ)
  | hintCallbackFailed (hintID : ℕ)
deriving DecidableEq

/-- Outcome of a Go computation: a value, a returned `error`, or a `panic`. -/
inductive Res (α : Type) where
  | ok (a : α)
  | err (e : GoErr)
  | panicked (msg : String)
deriving DecidableEq

/-- Sequencing of Go computations: errors and panics propagate. -/
def Res.bind {α β : Type} (x : Res α) (f : α → Res β) : Res β :=
  match x with
  | .ok a => f a
  | .err e => .err e
  | .panicked m => .panicked m

/-- In-bounds list read with Go's zero value for a field element. -/
def getV {p : ℕ} (l : List (ZMod p)) (i : ℕ) : ZMod p := l.getD i 0

/-- In-bounds list read with Go's zero value for a boolean. -/
def getB (l : List Bool) (i : ℕ) : Bool := l.getD i false

/-- The solver's per-call state (§4.2 `solution`): the dense value vector, the
parallel solved bitmap and the solved counter.  Hint bindings and coefficients
are passed to the operations explicitly; deferred logs are elided. -/
structure Solution (p : ℕ) where
  values : List (ZMod p)
  solved : List Bool
  nbSolved : ℕ
deriving DecidableEq

/-- Modelled from the spec: `solution.set` (§4.2; the `solution` type is not
among the source files).  Precondition `!solved[wireID]`: assigns the value,
marks the wire solved, bumps `nbSolved`.  Writing an already-solved wire is a
programming error — a panic. -/
def Solution.set {p : ℕ} (s : Solution p) (wireID : ℕ) (v : ZMod p) : Res (Solution p) :=
  if getB s.solved wireID then .panicked "solving the same wire twice should never happen."
  else .ok ⟨s.values.set wireID v, s.solved.set wireID true, s.nbSolved + 1⟩

/-- Modelled from the spec: `solution.computeTerm` (§4.2; not among the source
files) — returns `coefficients[coeffID] · values[wireID]` with fast paths for
the four reserved coefficient indices (`0 ↦ zero`, `1 ↦ one`, `2 ↦ minusOne`,
`3 ↦ two`), the zero fast path exiting before the wire is read. -/
def Solution.computeTerm {p : ℕ} (s : Solution p) (coefficients : List (ZMod p)) (t : Term) :
    ZMod p :=
  if t.coeffID = 0 then 0
  else if t.coeffID = 1 then getV s.values t.wireID
  else if t.coeffID = 2 then - getV s.values t.wireID
  else if t.coeffID = 3 then 2 * getV s.values t.wireID
  else getV coefficients t.coeffID * getV s.values t.wireID

/-- Writes the hint outputs wire by wire through `Solution.set` (tail of
`solveWithHint`; the arity check has already ensured both lists have the same
length). -/
def setOutputs {p : ℕ} : Solution p → List ℕ → List (ZMod p) → Res (Solution p)
  | s, [], _ => .ok s
  | s, _ :: _, [] => .ok s
  | s, w :: ws, v :: vs => (s.set w v).bind (fun s' => setOutputs s' ws vs)

/-- Modelled from the spec: `solution.solveWithHint` (§4.2; not among the
source files) — checks every input wire is solved (`HintInputUnsolved`),
evaluates the input terms, invokes the callback (`HintCallbackFailed` on
failure), checks the output arity (`HintOutputArity`) and `set`s each output
wire. -/
def solveWithHint {p : ℕ} (hintFunctions : ℕ → Option (List (ZMod p) → Option (List (ZMod p))))
    (coefficients : List (ZMod p)) (s : Solution p) (h : HintBinding) : Res (Solution p) :=
  match h.inputs.find? (fun t => ! getB s.solved t.wireID) with
  | some t => .err (.hintInputUnsolved t.wireID)
  | none =>
    match hintFunctions h.hintID with
    | none => .err (.hintNotRegistered h.hintID)
    | some f =>
      match f (h.inputs.map (s.computeTerm coefficients)) with
      | none => .err (.hintCallbackFailed h.hintID)
      | some outs =>
        if outs.length ≠ h.outputs.length then .err (.hintOutputArity h.outputs.length outs.length)
        else setOutputs s h.outputs outs

/-- One position block of `computeHints`: if `guard` holds (the position's
coefficients are not all the zero coefficient) and the wire is unsolved, drive
its hint if it has one, otherwise record the position as the remaining
unknown. -/
def hintOrUnknown {p : ℕ} (cs : SparseR1CS p)
    (hintFunctions : ℕ → Option (List (ZMod p) → Option (List (ZMod p))))
    (guard : Bool) (wid : ℕ) (pos : ℤ) (st : ℤ × Solution p) : Res (ℤ × Solution p) :=
  if guard && ! getB st.2.solved wid then
    match cs.mHints.lookup wid with
    | some h => (solveWithHint hintFunctions cs.coefficients st.2 h).bind (fun s' => .ok (st.1, s'))
    | none => .ok (pos, st.2)
  else .ok (st.1, st.2)

/-- `computeHints` (generated `cs` file): resolves hint wires of the
constraint and returns the position of the remaining unknown (`L = 0`,
`R = 1`, `O = 2`) or `-1` if none remains.  The three position blocks run in
order `L`, `R`, `O`; a later block overwrites the recorded position. -/
def computeHints {p : ℕ} (cs : SparseR1CS p)
    (hintFunctions : ℕ → Option (List (ZMod p) → Option (List (ZMod p))))
    (c : SparseR1C) (s : Solution p) : Res (ℤ × Solution p) :=
  (hintOrUnknown cs hintFunctions (c.L.coeffID != 0 || c.M.1.coeffID != 0) c.L.wireID 0
      (-1, s)).bind
    (fun st => (hintOrUnknown cs hintFunctions (c.R.coeffID != 0 || c.M.2.coeffID != 0)
      c.R.wireID 1 st).bind
      (hintOrUnknown cs hintFunctions (c.O.coeffID != 0) c.O.wireID 2))

/-- `solveConstraint` (generated `cs` file): resolves hints, then solves the
at-most-one remaining unknown position.  The `lro = 1` (solve for `R`) and
`lro = 0` (solve for `L`) branches are transcribed verbatim — including the
write target `c.L.wireID` that the source uses in **both** branches. -/
def solveConstraint {p : ℕ} (cs : SparseR1CS p)
    (hintFunctions : ℕ → Option (List (ZMod p) → Option (List (ZMod p))))
    (coefficientsNegInv : List (ZMod p)) (c : SparseR1C) (s₀ : Solution p) :
    Res (Solution p) :=
  (computeHints cs hintFunctions c s₀).bind (fun st =>
    let lro := st.1
    let s := st.2
    if lro = -1 then .ok s
    else if lro = 1 then
      if ! getB s.solved c.L.wireID then .panicked "L wire should be instantiated when we solve R"
      else
        let u3 := getV cs.coefficients c.M.1.coeffID * getV cs.coefficients c.M.2.coeffID
        let u2 := getV cs.coefficients c.R.coeffID
        let den := u3 * getV s.values c.L.wireID + u2
        let v1 := s.computeTerm cs.coefficients c.L
        let v2 := s.computeTerm cs.coefficients c.O
        let num := v1 + v2 + getV cs.coefficients c.K
        s.set c.L.wireID (- fdiv p num den)
    else if lro = 0 then
      if ! getB s.solved c.R.wireID then .panicked "R wire should be instantiated when we solve L"
      else
        let u3 := getV cs.coefficients c.M.1.coeffID * getV cs.coefficients c.M.2.coeffID
        let u1 := getV cs.coefficients c.L.coeffID
        let den := u3 * getV s.values c.R.wireID + u1
        let v1 := s.computeTerm cs.coefficients c.R
        let v2 := s.computeTerm cs.coefficients c.O
        let num := v1 + v2 + getV cs.coefficients c.K
        s.set c.L.wireID (- fdiv p num den)
    else
      let cID := c.O.coeffID
      let vID := c.O.wireID
      let l := s.computeTerm cs.coefficients c.L
      let r := s.computeTerm cs.coefficients c.R
      let m0 := s.computeTerm cs.coefficients c.M.1
      let m1 := s.computeTerm cs.coefficients c.M.2
      let o := (m0 * m1 + l + r + getV cs.coefficients c.K) * getV coefficientsNegInv cID
      s.set vID o)

/-- `checkConstraint` (generated `cs` file): whether
`l + r + m0·m1 + o + qK = 0` holds on the current values (the Go function
returns a formatted error when it does not; the message is elided). -/
def checkConstraint {p : ℕ} (cs : SparseR1CS p) (c : SparseR1C) (s : Solution p) : Bool :=
  let l := s.computeTerm cs.coefficients c.L
  let r := s.computeTerm cs.coefficients c.R
  let m0 := s.computeTerm cs.coefficients c.M.1
  let m1 := s.computeTerm cs.coefficients c.M.2
  let o := s.computeTerm cs.coefficients c.O
  decide (m0 * m1 + l + r + o + getV cs.coefficients c.K = 0)

/-- One level of `parallelSolve`, rendered sequentially.  This is literally the
code's inline path (`maxCPU ≤ 1`); the worker-pool path performs the same
`solveConstraint` / `checkConstraint` calls on each constraint of the level and
reports the first queued error.  Every error from either call is wrapped in
`UnsatisfiedConstraintError` with the constraint id (the `MDebug` lookup only
changes the attached debug message, which is elided). -/
def solveLevel {p : ℕ} (cs : SparseR1CS p)
    (hintFunctions : ℕ → Option (List (ZMod p) → Option (List (ZMod p))))
    (coefficientsNegInv : List (ZMod p)) : List ℕ → Solution p → Res (Solution p)
  | [], s => .ok s
  | i :: rest, s =>
    match solveConstraint cs hintFunctions coefficientsNegInv (cs.constraints.getD i defaultC)
        s with
    | .err _ => .err (.unsatisfiedConstraint i)
    | .panicked m => .panicked m
    | .ok s' =>
      if checkConstraint cs (cs.constraints.getD i defaultC) s' then
        solveLevel cs hintFunctions coefficientsNegInv rest s'
      else .err (.unsatisfiedConstraint i)

/-- `parallelSolve` (generated `cs` file): drives the levels in order.  Note
that `opt.force` is nowhere consulted — the function has no force-mode path. -/
def parallelSolve {p : ℕ} (cs : SparseR1CS p)
    (hintFunctions : ℕ → Option (List (ZMod p) → Option (List (ZMod p))))
    (coefficientsNegInv : List (ZMod p)) : List (List ℕ) → Solution p → Res (Solution p)
  | [], s => .ok s
  | lvl :: rest, s =>
    (solveLevel cs hintFunctions coefficientsNegInv lvl s).bind
      (parallelSolve cs hintFunctions coefficientsNegInv rest)

/-- `SparseR1CS.Solve` (generated `cs` file): checks the witness size, builds
the per-call solution state with the witness copied into the value vector's
first `nbPublic + nbSecret` slots and marked solved (`newSolution`'s
hint-registration check included, modelled from the spec §4.2), batch-inverts
and negates the coefficient table (`coeffsNegInv[i] = -coeffs[i]⁻¹`, zero
entries kept at zero by the library's convention), runs `parallelSolve`, and
finally panics if some wire was never instantiated (`isValid` is
`nbSolved = nbVariables`). -/
def Solve {p : ℕ} (cs : SparseR1CS p) (witness : List (ZMod p)) (opt : ProverConfig p) :
    Res (List (ZMod p)) :=
  let nbVariables := cs.nbInternalVariables + cs.nbSecretVariables + cs.nbPublicVariables
  if witness.length ≠ cs.nbPublicVariables + cs.nbSecretVariables then
    .err (.witnessSize witness.length (cs.nbPublicVariables + cs.nbSecretVariables))
  else
    match cs.mHints.find? (fun wh => (opt.hintFunctions wh.2.hintID).isNone) with
    | some wh => .err (.hintNotRegistered wh.2.hintID)
    | none =>
      let s₀ : Solution p :=
        ⟨witness ++ List.replicate cs.nbInternalVariables 0,
         List.replicate witness.length true ++ List.replicate cs.nbInternalVariables false,
         witness.length⟩
      let coefficientsNegInv := cs.coefficients.map (fun c => - finv p c)
      match parallelSolve cs opt.hintFunctions coefficientsNegInv cs.levels s₀ with
      | .err e => .err e
      | .panicked m => .panicked m
      | .ok s' =>
        if s'.nbSolved = nbVariables then .ok s'.values
        else .panicked "solver didn't instantiate all wires"

/-! Generic list-read helper lemmas. -/

theorem getD_set_ne {α : Type} (l : List α) {i j : ℕ} (a d : α) (h : i ≠ j) :
    (l.set i a).getD j d = l.getD j d := by
  simp [List.getD, List.getElem?_set_ne h]

theorem getD_set_self {α : Type} (l : List α) {i : ℕ} (a d : α) (h : i < l.length) :
    (l.set i a).getD i d = a := by
  simp [List.getD, List.getElem?_set_self, h]

theorem getD_append_left {α : Type} (l₁ l₂ : List α) {i : ℕ} (d : α) (h : i < l₁.length) :
    (l₁ ++ l₂).getD i d = l₁.getD i d := by
  simp [List.getD, List.getElem?_append_left h]

/-! Frame discipline: every state mutation of the solver goes through
`Solution.set`, which refuses to touch a solved wire.  `Preserves s s'` says
that going from `s` to `s'` no solved wire lost its mark or changed its
value. -/

def Preserves {p : ℕ} (s s' : Solution p) : Prop :=
  ∀ i, getB s.solved i = true → getB s'.solved i = true ∧ getV s'.values i = getV s.values i

theorem Preserves.refl {p : ℕ} (s : Solution p) : Preserves s s := fun _ hi => ⟨hi, rfl⟩

theorem Preserves.trans {p : ℕ} {s s' s'' : Solution p} (h1 : Preserves s s')
    (h2 : Preserves s' s'') : Preserves s s'' := by
  intro i hi
  obtain ⟨ha, hb⟩ := h1 i hi
  obtain ⟨hc, hd⟩ := h2 i ha
  exact ⟨hc, hd.trans hb⟩

theorem bind_eq_ok {α β : Type} {x : Res α} {f : α → Res β} {b : β} :
    x.bind f = .ok b ↔ ∃ a, x = .ok a ∧ f a = .ok b := by
  cases x <;> simp [Res.bind]

theorem set_eq_ok {p : ℕ} {s s' : Solution p} {w : ℕ} {v : ZMod p} :
    s.set w v = .ok s' ↔ getB s.solved w = false ∧
      s' = ⟨s.values.set w v, s.solved.set w true, s.nbSolved + 1⟩ := by
  unfold Solution.set
  cases hw : getB s.solved w <;> simp [hw, eq_comm]

theorem set_preserves {p : ℕ} {s s' : Solution p} {w : ℕ} {v : ZMod p}
    (h : s.set w v = .ok s') : Preserves s s' := by
  rw [set_eq_ok] at h
  obtain ⟨hw, hs⟩ := h
  subst hs
  intro i hi
  have hne : w ≠ i := by
    intro he
    rw [← he, hw] at hi
    exact Bool.false_ne_true hi
  exact ⟨by rw [getB, getD_set_ne _ _ _ hne]; exact hi,
         by rw [getV, getD_set_ne _ _ _ hne]; rfl⟩

theorem setOutputs_preserves {p : ℕ} :
    ∀ (ws : List ℕ) (s s' : Solution p) (vs : List (ZMod p)),
      setOutputs s ws vs = .ok s' → Preserves s s' := by
  intro ws
  induction ws with
  | nil =>
    intro s s' vs h
    simp only [setOutputs, Res.ok.injEq] at h
    subst h
    exact Preserves.refl s
  | cons w ws ih =>
    intro s s' vs h
    cases vs with
    | nil =>
      simp only [setOutputs, Res.ok.injEq] at h
      subst h
      exact Preserves.refl s
    | cons v vs =>
      simp only [setOutputs] at h
      cases hset : s.set w v with
      | ok s₁ =>
        rw [hset] at h
        exact (set_preserves hset).trans (ih s₁ s' vs h)
      | err e => rw [hset] at h; exact absurd h (by simp [Res.bind])
      | panicked m => rw [hset] at h; exact absurd h (by simp [Res.bind])

theorem solveWithHint_preserves {p : ℕ}
    {hintFunctions : ℕ → Option (List (ZMod p) → Option (List (ZMod p)))}
    {coefficients : List (ZMod p)} {s s' : Solution p} {h : HintBinding}
    (hok : solveWithHint hintFunctions coefficients s h = .ok s') : Preserves s s' := by
  unfold solveWithHint at hok
  split at hok
  · exact absurd hok (by simp)
  · split at hok
    · exact absurd hok (by simp)
    · split at hok
      · exact absurd hok (by simp)
      · split at hok
        · exact absurd hok (by simp)
        · exact setOutputs_preserves _ _ _ _ hok

/-- Full case analysis of a successful `hintOrUnknown` step: either the guard
failed and the pair is unchanged, or the wire had a hint which was resolved
(position unchanged), or the position was recorded as the unknown. -/
theorem hintOrUnknown_eq_ok {p : ℕ} {cs : SparseR1CS p}
    {hintFunctions : ℕ → Option (List (ZMod p) → Option (List (ZMod p)))}
    {guard : Bool} {wid : ℕ} {pos : ℤ} {st st' : ℤ × Solution p}
    (hok : hintOrUnknown cs hintFunctions guard wid pos st = .ok st') :
    ((guard && ! getB st.2.solved wid) = false ∧ st' = (st.1, st.2)) ∨
    ((guard && ! getB st.2.solved wid) = true ∧
      ((∃ hb s₁, cs.mHints.lookup wid = some hb ∧
          solveWithHint hintFunctions cs.coefficients st.2 hb = .ok s₁ ∧ st' = (st.1, s₁)) ∨
       (cs.mHints.lookup wid = none ∧ st' = (pos, st.2)))) := by
  unfold hintOrUnknown at hok
  cases hg : (guard && ! getB st.2.solved wid) with
  | false =>
    rw [if_neg (by simp [hg])] at hok
    simp only [Res.ok.injEq] at hok
    exact Or.inl ⟨rfl, hok.symm⟩
  | true =>
    rw [if_pos hg] at hok
    refine Or.inr ⟨rfl, ?_⟩
    cases hlk : cs.mHints.lookup wid with
    | none =>
      rw [hlk] at hok
      have hok' : Res.ok (α := ℤ × Solution p) (pos, st.2) = .ok st' := hok
      simp only [Res.ok.injEq] at hok'
      exact Or.inr ⟨rfl, hok'.symm⟩
    | some hb =>
      rw [hlk] at hok
      have hok' : (solveWithHint hintFunctions cs.coefficients st.2 hb).bind
          (fun s₁ => Res.ok (st.1, s₁)) = .ok st' := hok
      rw [bind_eq_ok] at hok'
      obtain ⟨s₁, hs, hf⟩ := hok'
      simp only [Res.ok.injEq] at hf
      exact Or.inl ⟨hb, s₁, rfl, hs, hf.symm⟩

theorem hintOrUnknown_preserves {p : ℕ} {cs : SparseR1CS p}
    {hintFunctions : ℕ → Option (List (ZMod p) → Option (List (ZMod p)))}
    {guard : Bool} {wid : ℕ} {pos : ℤ} {st st' : ℤ × Solution p}
    (hok : hintOrUnknown cs hintFunctions guard wid pos st = .ok st') :
    Preserves st.2 st'.2 := by
  rcases hintOrUnknown_eq_ok hok with ⟨_, h⟩ | ⟨_, ⟨hb, s₁, _, hs, h⟩ | ⟨_, h⟩⟩ <;> subst h
  · exact Preserves.refl _
  · exact solveWithHint_preserves hs
  · exact Preserves.refl _

/-- `hintOrUnknown` either keeps the incoming unknown position or returns its
own position, and in the latter case leaves the state untouched with the wire
still unsolved. -/
theorem hintOrUnknown_pos {p : ℕ} {cs : SparseR1CS p}
    {hintFunctions : ℕ → Option (List (ZMod p) → Option (List (ZMod p)))}
    {guard : Bool} {wid : ℕ} {pos : ℤ} {st st' : ℤ × Solution p}
    (hok : hintOrUnknown cs hintFunctions guard wid pos st = .ok st') :
    st'.1 = st.1 ∨ (st' = (pos, st.2) ∧ getB st.2.solved wid = false) := by
  rcases hintOrUnknown_eq_ok hok with ⟨_, h⟩ | ⟨hg, ⟨hb, s₁, _, hs, h⟩ | ⟨_, h⟩⟩
  · subst h; exact Or.inl rfl
  · subst h; exact Or.inl rfl
  · subst h
    simp only [Bool.and_eq_true, Bool.not_eq_true'] at hg
    exact Or.inr ⟨rfl, hg.2⟩

theorem computeHints_preserves {p : ℕ} {cs : SparseR1CS p}
    {hintFunctions : ℕ → Option (List (ZMod p) → Option (List (ZMod p)))}
    {c : SparseR1C} {s : Solution p} {st : ℤ × Solution p}
    (hok : computeHints cs hintFunctions c s = .ok st) : Preserves s st.2 := by
  unfold computeHints at hok
  cases h1 : hintOrUnknown cs hintFunctions (c.L.coeffID != 0 || c.M.1.coeffID != 0) c.L.wireID 0
      (-1, s) with
  | ok st₁ =>
    rw [h1] at hok
    simp only [Res.bind] at hok
    cases h2 : hintOrUnknown cs hintFunctions (c.R.coeffID != 0 || c.M.2.coeffID != 0) c.R.wireID
        1 st₁ with
    | ok st₂ =>
      rw [h2] at hok
      simp only [Res.bind] at hok
      exact ((hintOrUnknown_preserves h1).trans (hintOrUnknown_preserves h2)).trans
        (hintOrUnknown_preserves hok)
    | err e => rw [h2] at hok; exact absurd hok (by simp [Res.bind])
    | panicked m => rw [h2] at hok; exact absurd hok (by simp [Res.bind])
  | err e => rw [h1] at hok; exact absurd hok (by simp [Res.bind])
  | panicked m => rw [h1] at hok; exact absurd hok (by simp [Res.bind])

theorem solveConstraint_preserves {p : ℕ} {cs : SparseR1CS p}
    {hintFunctions : ℕ → Option (List (ZMod p) → Option (List (ZMod p)))}
    {coefficientsNegInv : List (ZMod p)} {c : SparseR1C} {s s' : Solution p}
    (hok : solveConstraint cs hintFunctions coefficientsNegInv c s = .ok s') :
    Preserves s s' := by
  unfold solveConstraint at hok
  cases h1 : computeHints cs hintFunctions c s with
  | ok st =>
    rw [h1] at hok
    simp only [Res.bind] at hok
    have hpre := computeHints_preserves h1
    split at hok
    · simp only [Res.ok.injEq] at hok; subst hok; exact hpre
    · split at hok
      · split at hok
        · exact absurd hok (by simp)
        · exact hpre.trans (set_preserves hok)
      · split at hok
        · split at hok
          · exact absurd hok (by simp)
          · exact hpre.trans (set_preserves hok)
        · exact hpre.trans (set_preserves hok)
  | err e => rw [h1] at hok; exact absurd hok (by simp [Res.bind])
  | panicked m => rw [h1] at hok; exact absurd hok (by simp [Res.bind])

theorem solveLevel_preserves {p : ℕ} {cs : SparseR1CS p}
    {hintFunctions : ℕ → Option (List (ZMod p) → Option (List (ZMod p)))}
    {coefficientsNegInv : List (ZMod p)} :
    ∀ (lvl : List ℕ) (s s' : Solution p),
      solveLevel cs hintFunctions coefficientsNegInv lvl s = .ok s' → Preserves s s' := by
  intro lvl
  induction lvl with
  | nil =>
    intro s s' h
    simp only [solveLevel, Res.ok.injEq] at h
    subst h
    exact Preserves.refl s
  | cons i rest ih =>
    intro s s' h
    simp only [solveLevel] at h
    cases hc : solveConstraint cs hintFunctions coefficientsNegInv
        (cs.constraints.getD i defaultC) s with
    | ok s₁ =>
      rw [hc] at h
      have h₂ : (if checkConstraint cs (cs.constraints.getD i defaultC) s₁ = true then
          solveLevel cs hintFunctions coefficientsNegInv rest s₁
        else Res.err (.unsatisfiedConstraint i)) = .ok s' := h
      cases hchk : checkConstraint cs (cs.constraints.getD i defaultC) s₁ with
      | true =>
        rw [if_pos hchk] at h₂
        exact (solveConstraint_preserves hc).trans (ih s₁ s' h₂)
      | false =>
        rw [if_neg (by rw [hchk]; simp)] at h₂
        exact absurd h₂ (by simp)
    | err e => rw [hc] at h; exact absurd h (by simp)
    | panicked m => rw [hc] at h; exact absurd h (by simp)

theorem parallelSolve_preserves {p : ℕ} {cs : SparseR1CS p}
    {hintFunctions : ℕ → Option (List (ZMod p) → Option (List (ZMod p)))}
    {coefficientsNegInv : List (ZMod p)} :
    ∀ (levels : List (List ℕ)) (s s' : Solution p),
      parallelSolve cs hintFunctions coefficientsNegInv levels s = .ok s' → Preserves s s' := by
  intro levels
  induction levels with
  | nil =>
    intro s s' h
    simp only [parallelSolve, Res.ok.injEq] at h
    subst h
    exact Preserves.refl s
  | cons lvl rest ih =>
    intro s s' h
    simp only [parallelSolve] at h
    cases hl : solveLevel cs hintFunctions coefficientsNegInv lvl s with
    | ok s₁ =>
      rw [hl] at h
      simp only [Res.bind] at h
      exact (solveLevel_preserves lvl s s₁ hl).trans (ih s₁ s' h)
    | err e => rw [hl] at h; exact absurd h (by simp [Res.bind])
    | panicked m => rw [hl] at h; exact absurd h (by simp [Res.bind])

/-! Further helper lemmas about the solver. -/

theorem getD_replicate_lt {α : Type} (n : ℕ) (a d : α) {i : ℕ} (h : i < n) :
    (List.replicate n a).getD i d = a := by
  simp [List.getD, List.getElem?_replicate, h]

theorem computeTerm_coeff_zero {p : ℕ} (s : Solution p) (coefficients : List (ZMod p)) {t : Term}
    (h : t.coeffID = 0) : s.computeTerm coefficients t = 0 := by
  unfold Solution.computeTerm
  rw [if_pos h]

theorem getD_map_comm {α β : Type} (f : α → β) (l : List α) (d : α) :
    ∀ i, (l.map f).getD i (f d) = f (l.getD i d) := by
  induction l with
  | nil => intro i; rfl
  | cons a l ih =>
    intro i
    cases i with
    | zero => rfl
    | succ j => exact ih j

theorem getV_map_neg_finv (p : ℕ) [Fact p.Prime] (hp : 2 < p) (l : List (ZMod p)) (i : ℕ) :
    getV (l.map (fun x => - finv p x)) i = - (getV l i)⁻¹ := by
  have hz : - finv p (0 : ZMod p) = 0 := by
    rw [finv_eq_inv p hp, inv_zero, neg_zero]
  unfold getV
  calc (l.map (fun x => - finv p x)).getD i 0
      = (l.map (fun x => - finv p x)).getD i (- finv p 0) := by rw [hz]
    _ = - finv p (l.getD i 0) := getD_map_comm (fun x => - finv p x) l 0 i
    _ = - (l.getD i 0)⁻¹ := by rw [finv_eq_inv p hp]

/-- Inversion of a successful `Solve`: the witness-size check passed, the hint
registration check passed, `parallelSolve` succeeded from the initial state,
all wires ended up instantiated, and the result is the final value vector. -/
theorem Solve_eq_ok {p : ℕ} {cs : SparseR1CS p} {w : List (ZMod p)} {opt : ProverConfig p}
    {values : List (ZMod p)} (h : Solve cs w opt = .ok values) :
    ∃ s' : Solution p,
      parallelSolve cs opt.hintFunctions (cs.coefficients.map (fun c => - finv p c)) cs.levels
        ⟨w ++ List.replicate cs.nbInternalVariables 0,
         List.replicate w.length true ++ List.replicate cs.nbInternalVariables false,
         w.length⟩ = .ok s' ∧
      s'.nbSolved = cs.nbInternalVariables + cs.nbSecretVariables + cs.nbPublicVariables ∧
      values = s'.values := by
  unfold Solve at h
  split at h
  · exact absurd h (by simp)
  · cases hf : cs.mHints.find? (fun wh => (opt.hintFunctions wh.2.hintID).isNone) with
    | some wh => rw [hf] at h; exact absurd h (by simp)
    | none =>
      rw [hf] at h
      simp only [] at h
      cases hps : parallelSolve cs opt.hintFunctions
          (cs.coefficients.map (fun c => - finv p c)) cs.levels
          ⟨w ++ List.replicate cs.nbInternalVariables 0,
           List.replicate w.length true ++ List.replicate cs.nbInternalVariables false,
           w.length⟩ with
      | ok s' =>
        rw [hps] at h
        have h₂ : (if s'.nbSolved
            = cs.nbInternalVariables + cs.nbSecretVariables + cs.nbPublicVariables then
            Res.ok s'.values
          else Res.panicked "solver didn't instantiate all wires") = .ok values := h
        split at h₂
        · simp only [Res.ok.injEq] at h₂
          exact ⟨s', rfl, by assumption, h₂.symm⟩
        · exact absurd h₂ (by simp)
      | err e => rw [hps] at h; exact absurd h (by simp)
      | panicked m => rw [hps] at h; exact absurd h (by simp)

/-- Helper for the `R`-unknown analysis: whenever `computeHints` reports the
remaining unknown at position `R` (`lro = 1`), `solveConstraint` panics — either
on its own guard (`L` not solved) or inside `solution.set`, because the write
targets the already-solved `L` wire instead of the `R` wire. -/
theorem solveConstraint_R_panics {p : ℕ} (cs : SparseR1CS p)
    (hintFunctions : ℕ → Option (List (ZMod p) → Option (List (ZMod p))))
    (coefficientsNegInv : List (ZMod p)) (c : SparseR1C) (s₀ : Solution p)
    (st : ℤ × Solution p) (h : computeHints cs hintFunctions c s₀ = .ok st) (h1 : st.1 = 1) :
    ∃ m, solveConstraint cs hintFunctions coefficientsNegInv c s₀ = .panicked m := by
  unfold solveConstraint
  rw [h]
  simp only [Res.bind]
  rw [if_neg (by rw [h1]; decide), if_pos (by rw [h1])]
  cases hl : getB st.2.solved c.L.wireID with
  | false => exact ⟨_, by rw [if_pos (by decide)]⟩
  | true =>
    refine ⟨"solving the same wire twice should never happen.", ?_⟩
    rw [if_neg (by decide)]
    unfold Solution.set
    rw [if_pos hl]

/-! Concrete constraint systems over `ZMod 5` used to check the claims on
explicit inputs.  The coefficient table always starts with the four reserved
entries `[0, 1, -1, 2]`. -/

/-- A solvable system: one public wire, one internal wire, one constraint
`xL - xO = 0` solved for `O`. -/
def csA : SparseR1CS 5 :=
  { nbPublicVariables := 1, nbSecretVariables := 0, nbInternalVariables := 1,
    coefficients := [0, 1, -1, 2],
    constraints := [⟨⟨1, 0⟩, ⟨0, 0⟩, ⟨2, 1⟩, (⟨0, 0⟩, ⟨0, 0⟩), 0⟩],
    levels := [[0]], mHints := [] }

/-- Prover options with no hints and `force` unset. -/
def optA : ProverConfig 5 := ⟨fun _ => none, false⟩

/-- A system whose single constraint `xL + xR = 0` must be solved for `R`
(wire 1): `L = (one, wire 0)`, `R = (one, wire 1)`, everything else zero. -/
def csB : SparseR1CS 5 :=
  { nbPublicVariables := 1, nbSecretVariables := 0, nbInternalVariables := 1,
    coefficients := [0, 1, -1, 2],
    constraints := [⟨⟨1, 0⟩, ⟨1, 1⟩, ⟨0, 0⟩, (⟨0, 0⟩, ⟨0, 0⟩), 0⟩],
    levels := [[0]], mHints := [] }

/-- State of `csB` after the witness `[2]` is installed: wire 0 solved with
value `2`, wire 1 (the `R` unknown) unsolved. -/
def solB : Solution 5 := ⟨[2, 0], [true, false], 1⟩

/-- A system whose single constraint has `qR = 0` and `qM = 0` (both positions
carry the zero coefficient) with the `R` wire (wire 1) never solvable:
`1·xL + qK = 0` with `qK = coefficients[4] = 2`. -/
def csC : SparseR1CS 5 :=
  { nbPublicVariables := 1, nbSecretVariables := 0, nbInternalVariables := 1,
    coefficients := [0, 1, -1, 2, 2],
    constraints := [⟨⟨1, 0⟩, ⟨0, 1⟩, ⟨0, 0⟩, (⟨0, 0⟩, ⟨0, 0⟩), 4⟩],
    levels := [[0]], mHints := [] }

/-- State of `csC` after the witness `[3]` is installed. -/
def solC : Solution 5 := ⟨[3, 0], [true, false], 1⟩

/-- A fully-determined but unsatisfiable system: single constraint
`1·x + 1 = 0` with witness forcing `x = 1`. -/
def csD : SparseR1CS 5 :=
  { nbPublicVariables := 1, nbSecretVariables := 0, nbInternalVariables := 0,
    coefficients := [0, 1, -1, 2],
    constraints := [⟨⟨1, 0⟩, ⟨0, 0⟩, ⟨0, 0⟩, (⟨0, 0⟩, ⟨0, 0⟩), 1⟩],
    levels := [[0]], mHints := [] }

/-! Claim theorems. -/

/-- C1 (code bug): on a constraint whose remaining unknown after hint
resolution is the `R` position (`computeHints` returns `1`), `solveConstraint`
does **not** assign `-num/den` to `values[R.wireID]`.  At this concrete input
the `R` wire (wire 1) is unsolved and the spec's assignment would store
`-(qL·xL + qO·xO + qK)/(qM·xL + qR) = -2/1 = 3` into it, but the code writes
the already-solved `L` wire (`solution.set(c.L.WireID(), num)`) and therefore
panics inside `solution.set`; the `R` wire is never assigned. -/
theorem c1_solveR_writes_L_wire_and_panics :
    computeHints csB (fun _ => none) (csB.constraints.getD 0 defaultC) solB = .ok (1, solB) ∧
    getB solB.solved (csB.constraints.getD 0 defaultC).R.wireID = false ∧
    solveConstraint csB (fun _ => none) (csB.coefficients.map (fun c => - finv 5 c))
        (csB.constraints.getD 0 defaultC) solB
      = .panicked "solving the same wire twice should never happen." := by
  refine ⟨by decide, by decide, ?_⟩
  decide

/-- C2 (confirmed): whenever `Solve` succeeds on a witness of the declared
size, the first `nbPublic + nbSecret` entries of the returned value vector are
the witness, element by element: the witness slots are marked solved up front
and `solution.set` refuses (panics) to overwrite any solved wire, so no
constraint- or hint-driven write can touch them. -/
theorem c2_witness_prefix_preserved {p : ℕ} (cs : SparseR1CS p) (w : List (ZMod p))
    (opt : ProverConfig p) (values : List (ZMod p))
    (hlen : w.length = cs.nbPublicVariables + cs.nbSecretVariables)
    (hok : Solve cs w opt = .ok values) :
    ∀ i < cs.nbPublicVariables + cs.nbSecretVariables, values.getD i 0 = w.getD i 0 := by
  obtain ⟨s', hps, _, hv⟩ := Solve_eq_ok hok
  intro i hi
  have hiw : i < w.length := by omega
  have hpre := parallelSolve_preserves cs.levels _ s' hps
  have hsol : getB (List.replicate w.length true
      ++ List.replicate cs.nbInternalVariables false) i = true := by
    rw [getB, getD_append_left _ _ _ (by simpa using hiw), getD_replicate_lt _ _ _ hiw]
  obtain ⟨_, hval⟩ := hpre i hsol
  rw [hv]
  calc s'.values.getD i 0
      = getV (w ++ List.replicate cs.nbInternalVariables 0) i := hval
    _ = w.getD i 0 := by rw [getV, getD_append_left _ _ _ hiw]

/-- Witness for C2 at a concrete input: `Solve csA [3] optA = .ok [3, 3]` and
the first entry of the output is the witness entry. -/
theorem c2_witness_prefix_preserved_witness :
    ([3] : List (ZMod 5)).length = csA.nbPublicVariables + csA.nbSecretVariables ∧
    Solve csA [3] optA = .ok [3, 3] ∧
    (∀ i < csA.nbPublicVariables + csA.nbSecretVariables,
      ([3, 3] : List (ZMod 5)).getD i 0 = ([3] : List (ZMod 5)).getD i 0) :=
  ⟨by decide, by decide,
   c2_witness_prefix_preserved csA [3] optA [3, 3] (by decide) (by decide)⟩

/-- C3 counterexample: a constraint being solved for the unknown `R` (`R`'s
wire 1 is unsolved) with `den = qM·xL + qR = 0` — the spec's own example
`qR = 0, qM = 0` — for which the solver returns **no** `UnsatisfiedConstraint`
error: the residual `qL·xL + qK = 3 + 2 = 0` vanishes, so `solveConstraint`
does nothing, `checkConstraint` accepts, and `Solve` ends in the
"solver didn't instantiate all wires" panic instead. -/
theorem c3_den_zero_without_unsatisfied_error :
    getV csC.coefficients (csC.constraints.getD 0 defaultC).M.1.coeffID
      * getV csC.coefficients (csC.constraints.getD 0 defaultC).M.2.coeffID
      * getV solC.values (csC.constraints.getD 0 defaultC).L.wireID
      + getV csC.coefficients (csC.constraints.getD 0 defaultC).R.coeffID = 0 ∧
    getB solC.solved (csC.constraints.getD 0 defaultC).R.wireID = false ∧
    solveConstraint csC (fun _ => none) (csC.coefficients.map (fun c => - finv 5 c))
      (csC.constraints.getD 0 defaultC) solC = .ok solC ∧
    checkConstraint csC (csC.constraints.getD 0 defaultC) solC = true ∧
    Solve csC [3] optA ≠ .err (.unsatisfiedConstraint 0) ∧
    Solve csC [3] optA = .panicked "solver didn't instantiate all wires" := by
  refine ⟨by decide, by decide, by decide, by decide, by decide, by decide⟩

/-- C3 (corrected): when a sparse constraint's `R` position carries the zero
coefficient in both `qR` and `qM` (`den = qM·xL + qR = 0`) while its `R` wire
is still unknown and `L`, `O` are solved, there is no dedicated `den = 0`
check: `solveConstraint` leaves the state untouched, and the level loop
returns `UnsatisfiedConstraint` for that constraint **iff** the residual
`qL·xL + qO·xO + qK` is non-zero (the verification pass); when the residual is
zero no error is reported and the `R` wire stays unsolved. -/
theorem c3_den_zero_unsatisfied_iff_residual {p : ℕ} (cs : SparseR1CS p)
    (hintFunctions : ℕ → Option (List (ZMod p) → Option (List (ZMod p))))
    (coefficientsNegInv : List (ZMod p)) (c : SparseR1C) (s : Solution p) (i : ℕ) (rest : List ℕ)
    (hc : cs.constraints.getD i defaultC = c)
    (hR : c.R.coeffID = 0) (hM2 : c.M.2.coeffID = 0)
    (hz : getV cs.coefficients 0 = 0)
    (hL : getB s.solved c.L.wireID = true)
    (hO : getB s.solved c.O.wireID = true)
    (_hRw : getB s.solved c.R.wireID = false) :
    getV cs.coefficients c.M.1.coeffID * getV cs.coefficients c.M.2.coeffID
        * getV s.values c.L.wireID + getV cs.coefficients c.R.coeffID = 0 ∧
    solveConstraint cs hintFunctions coefficientsNegInv c s = .ok s ∧
    solveLevel cs hintFunctions coefficientsNegInv (i :: rest) s =
      (if s.computeTerm cs.coefficients c.L + s.computeTerm cs.coefficients c.O
          + getV cs.coefficients c.K = 0 then
        solveLevel cs hintFunctions coefficientsNegInv rest s
      else .err (.unsatisfiedConstraint i)) := by
  have hCH : computeHints cs hintFunctions c s = .ok (-1, s) := by
    unfold computeHints hintOrUnknown
    simp [hL, hO, hR, hM2, Res.bind]
  have hSC : solveConstraint cs hintFunctions coefficientsNegInv c s = .ok s := by
    unfold solveConstraint
    rw [hCH]
    simp [Res.bind]
  have hres : checkConstraint cs c s
      = decide (s.computeTerm cs.coefficients c.L + s.computeTerm cs.coefficients c.O
        + getV cs.coefficients c.K = 0) := by
    simp only [checkConstraint]
    rw [computeTerm_coeff_zero s _ hM2, computeTerm_coeff_zero s _ hR]
    rw [decide_eq_decide]
    rw [mul_zero, zero_add, add_zero]
  refine ⟨by rw [hM2, hz, hR, hz, mul_zero, zero_mul, add_zero], hSC, ?_⟩
  simp only [solveLevel]
  rw [hc, hSC]
  show (if checkConstraint cs c s = true then
      solveLevel cs hintFunctions coefficientsNegInv rest s
    else .err (.unsatisfiedConstraint i)) = _
  rw [hres]
  simp only [decide_eq_true_eq]

/-- Witness for C3's corrected statement at a concrete input with non-zero
residual: `xL = 1`, residual `1 + 2 = 3 ≠ 0`, so the level loop reports
`UnsatisfiedConstraint` for constraint `0`. -/
theorem c3_den_zero_unsatisfied_iff_residual_witness :
    csC.constraints.getD 0 defaultC = csC.constraints.getD 0 defaultC ∧
    (csC.constraints.getD 0 defaultC).R.coeffID = 0 ∧
    (csC.constraints.getD 0 defaultC).M.2.coeffID = 0 ∧
    getV csC.coefficients 0 = 0 ∧
    getB (⟨[1, 0], [true, false], 1⟩ : Solution 5).solved
      (csC.constraints.getD 0 defaultC).L.wireID = true ∧
    getB (⟨[1, 0], [true, false], 1⟩ : Solution 5).solved
      (csC.constraints.getD 0 defaultC).O.wireID = true ∧
    getB (⟨[1, 0], [true, false], 1⟩ : Solution 5).solved
      (csC.constraints.getD 0 defaultC).R.wireID = false ∧
    (getV csC.coefficients (csC.constraints.getD 0 defaultC).M.1.coeffID
        * getV csC.coefficients (csC.constraints.getD 0 defaultC).M.2.coeffID
        * getV (⟨[1, 0], [true, false], 1⟩ : Solution 5).values
            (csC.constraints.getD 0 defaultC).L.wireID
        + getV csC.coefficients (csC.constraints.getD 0 defaultC).R.coeffID = 0 ∧
      solveConstraint csC (fun _ => none) [] (csC.constraints.getD 0 defaultC)
        ⟨[1, 0], [true, false], 1⟩ = .ok ⟨[1, 0], [true, false], 1⟩ ∧
      solveLevel csC (fun _ => none) [] [0] ⟨[1, 0], [true, false], 1⟩ =
        (if (⟨[1, 0], [true, false], 1⟩ : Solution 5).computeTerm csC.coefficients
              (csC.constraints.getD 0 defaultC).L
            + (⟨[1, 0], [true, false], 1⟩ : Solution 5).computeTerm csC.coefficients
              (csC.constraints.getD 0 defaultC).O
            + getV csC.coefficients (csC.constraints.getD 0 defaultC).K = 0 then
          solveLevel csC (fun _ => none) [] [] ⟨[1, 0], [true, false], 1⟩
        else .err (.unsatisfiedConstraint 0))) :=
  ⟨rfl, by decide, by decide, by decide, by decide, by decide, by decide,
   c3_den_zero_unsatisfied_iff_residual csC (fun _ => none) [] (csC.constraints.getD 0 defaultC)
     ⟨[1, 0], [true, false], 1⟩ 0 [] rfl (by decide) (by decide) (by decide) (by decide)
     (by decide) (by decide)⟩

/-- C4 counterexample: with the `force` option set on an unsatisfiable system,
`Solve` still returns `UnsatisfiedConstraint` — the verification step is not
skipped and no best-effort value vector is returned. -/
theorem c4_force_does_not_suppress_unsatisfied :
    Solve csD [1] ⟨fun _ => none, true⟩ = .err (.unsatisfiedConstraint 0) := by decide

/-- C4 (corrected): the sparse solver ignores the `force` prover option
entirely — `Solve` never reads it, so its result is identical whatever the
flag's value, and in particular `UnsatisfiedConstraint` checks are **not**
suppressed when `force` is set. -/
theorem c4_solve_ignores_force {p : ℕ} (cs : SparseR1CS p) (w : List (ZMod p))
    (hintFunctions : ℕ → Option (List (ZMod p) → Option (List (ZMod p)))) (b b' : Bool) :
    Solve cs w ⟨hintFunctions, b⟩ = Solve cs w ⟨hintFunctions, b'⟩ := rfl

/-- C5 counterexample: on a system whose `R` wire can never be solved, `Solve`
does not return an `UnsolvedWires{count}` error to the caller — it panics with
"solver didn't instantiate all wires". -/
theorem c5_unsolved_wires_not_an_error :
    Solve csC [3] optA ≠ .err (.unsolvedWires 1) ∧
    Solve csC [3] optA = .panicked "solver didn't instantiate all wires" := by
  refine ⟨by decide, by decide⟩

/-- C5 (corrected): if after the last level some wire was never solved
(`state.isValid()` false, i.e. `nbSolved ≠ nbVariables`), `Solve` panics with
"solver didn't instantiate all wires" rather than returning an error value to
the caller. -/
theorem c5_unsolved_wires_panics {p : ℕ} (cs : SparseR1CS p) (w : List (ZMod p))
    (opt : ProverConfig p) (s' : Solution p)
    (hlen : w.length = cs.nbPublicVariables + cs.nbSecretVariables)
    (hreg : cs.mHints.find? (fun wh => (opt.hintFunctions wh.2.hintID).isNone) = none)
    (hps : parallelSolve cs opt.hintFunctions (cs.coefficients.map (fun c => - finv p c))
      cs.levels
      ⟨w ++ List.replicate cs.nbInternalVariables 0,
       List.replicate w.length true ++ List.replicate cs.nbInternalVariables false,
       w.length⟩ = .ok s')
    (hnv : s'.nbSolved ≠ cs.nbInternalVariables + cs.nbSecretVariables + cs.nbPublicVariables) :
    Solve cs w opt = .panicked "solver didn't instantiate all wires" := by
  unfold Solve
  rw [if_neg (fun hx => hx hlen), hreg]
  simp only []
  rw [hps]
  show (if s'.nbSolved = cs.nbInternalVariables + cs.nbSecretVariables + cs.nbPublicVariables then
      Res.ok s'.values
    else Res.panicked "solver didn't instantiate all wires") = _
  rw [if_neg hnv]

/-- Witness for C5's corrected statement: applying it to `csC` with witness
`[3]`, where `parallelSolve` succeeds but leaves wire 1 unsolved
(`nbSolved = 1 ≠ 2`). -/
theorem c5_unsolved_wires_panics_witness :
    ([3] : List (ZMod 5)).length = csC.nbPublicVariables + csC.nbSecretVariables ∧
    csC.mHints.find? (fun wh => (optA.hintFunctions wh.2.hintID).isNone) = none ∧
    parallelSolve csC optA.hintFunctions (csC.coefficients.map (fun c => - finv 5 c)) csC.levels
      ⟨[3] ++ List.replicate csC.nbInternalVariables 0,
       List.replicate ([3] : List (ZMod 5)).length true
         ++ List.replicate csC.nbInternalVariables false,
       ([3] : List (ZMod 5)).length⟩ = .ok ⟨[3, 0], [true, false], 1⟩ ∧
    (⟨[3, 0], [true, false], 1⟩ : Solution 5).nbSolved
      ≠ csC.nbInternalVariables + csC.nbSecretVariables + csC.nbPublicVariables ∧
    Solve csC [3] optA = .panicked "solver didn't instantiate all wires" :=
  ⟨by decide, by decide, by decide, by decide,
   c5_unsolved_wires_panics csC [3] optA ⟨[3, 0], [true, false], 1⟩ (by decide) (by decide)
     (by decide) (by decide)⟩

/-- Derivation for the `O`-unknown case: if `computeHints` returns position
`2`, that position was recorded in the final (`O`) block, which leaves the
state unchanged, so the `O` wire is still unsolved in the returned state. -/
theorem computeHints_O_unsolved {p : ℕ} {cs : SparseR1CS p}
    {hintFunctions : ℕ → Option (List (ZMod p) → Option (List (ZMod p)))}
    {c : SparseR1C} {s₀ : Solution p} {st : ℤ × Solution p}
    (h : computeHints cs hintFunctions c s₀ = .ok st) (h2 : st.1 = 2) :
    getB st.2.solved c.O.wireID = false := by
  unfold computeHints at h
  rw [bind_eq_ok] at h
  obtain ⟨st₁, h1, hrest⟩ := h
  rw [bind_eq_ok] at hrest
  obtain ⟨st₂, hR, hO⟩ := hrest
  rcases hintOrUnknown_pos hO with h3 | ⟨he, hu⟩
  · exfalso
    rcases hintOrUnknown_pos hR with h4 | ⟨he2, _⟩
    · rcases hintOrUnknown_pos h1 with h5 | ⟨he1, _⟩
      · rw [h2, h4, h5] at h3
        simp at h3
      · rw [h2, h4, he1] at h3
        simp at h3
    · rw [h2, he2] at h3
      simp at h3
  · rw [he]
    exact hu

/-- C9 (confirmed): when the remaining unknown is the `O` position
(`computeHints` returns `2`), `solveConstraint` assigns to `values[O.wireID]`
the value `(m₀·m₁ + l + r + qK) · coeffsNegInv[O.coeffID]`, where
`coeffsNegInv[i] = -coeffs[i]⁻¹` is the negated batch inversion of the
coefficient table (zero entries staying zero by the library convention), and
that value equals `-(m₀·m₁ + l + r + qK) · coeffs[O.coeffID]⁻¹`. -/
theorem c9_solveO_value {p : ℕ} [Fact p.Prime] (hp : 2 < p) (cs : SparseR1CS p)
    (hintFunctions : ℕ → Option (List (ZMod p) → Option (List (ZMod p))))
    (c : SparseR1C) (s₀ : Solution p) (st : ℤ × Solution p)
    (h : computeHints cs hintFunctions c s₀ = .ok st) (h2 : st.1 = 2)
    (hw : c.O.wireID < st.2.values.length) :
    ∃ s' : Solution p,
      solveConstraint cs hintFunctions (cs.coefficients.map (fun x => - finv p x)) c s₀
        = .ok s' ∧
      getV (cs.coefficients.map (fun x => - finv p x)) c.O.coeffID
        = - (getV cs.coefficients c.O.coeffID)⁻¹ ∧
      getV s'.values c.O.wireID
        = (st.2.computeTerm cs.coefficients c.M.1 * st.2.computeTerm cs.coefficients c.M.2
          + st.2.computeTerm cs.coefficients c.L + st.2.computeTerm cs.coefficients c.R
          + getV cs.coefficients c.K)
          * getV (cs.coefficients.map (fun x => - finv p x)) c.O.coeffID ∧
      getV s'.values c.O.wireID
        = - ((st.2.computeTerm cs.coefficients c.M.1 * st.2.computeTerm cs.coefficients c.M.2
          + st.2.computeTerm cs.coefficients c.L + st.2.computeTerm cs.coefficients c.R
          + getV cs.coefficients c.K) * (getV cs.coefficients c.O.coeffID)⁻¹) := by
  have hOu := computeHints_O_unsolved h h2
  refine ⟨⟨st.2.values.set c.O.wireID
      ((st.2.computeTerm cs.coefficients c.M.1 * st.2.computeTerm cs.coefficients c.M.2
        + st.2.computeTerm cs.coefficients c.L + st.2.computeTerm cs.coefficients c.R
        + getV cs.coefficients c.K)
        * getV (cs.coefficients.map (fun x => - finv p x)) c.O.coeffID),
    st.2.solved.set c.O.wireID true, st.2.nbSolved + 1⟩, ?_, ?_, ?_, ?_⟩
  · unfold solveConstraint
    rw [h]
    simp only [Res.bind]
    rw [if_neg (by rw [h2]; decide), if_neg (by rw [h2]; decide), if_neg (by rw [h2]; decide)]
    unfold Solution.set
    rw [if_neg (by rw [hOu]; simp)]
  · exact getV_map_neg_finv p hp _ _
  · rw [getV, getD_set_self _ _ _ hw]
  · rw [getV, getD_set_self _ _ _ hw, getV_map_neg_finv p hp, mul_neg]

/-- The state of `csA` after installing the witness `[3]`. -/
def solA : Solution 5 := ⟨[3, 0], [true, false], 1⟩

/-- The pair returned by `computeHints` on `csA`'s constraint from `solA`. -/
def stA : ℤ × Solution 5 := (2, solA)

/-- The single constraint of `csA`. -/
def cA : SparseR1C := csA.constraints.getD 0 defaultC

/-- Witness for C9 at a concrete input: `csA`'s constraint solved for `O` from
the state after witness `[3]`. -/
theorem c9_solveO_value_witness :
    (2 : ℕ) < 5 ∧
    computeHints csA optA.hintFunctions cA solA = .ok stA ∧
    stA.1 = 2 ∧
    cA.O.wireID < stA.2.values.length ∧
    (∃ s' : Solution 5,
      solveConstraint csA optA.hintFunctions (csA.coefficients.map (fun x => - finv 5 x)) cA solA
        = .ok s' ∧
      getV (csA.coefficients.map (fun x => - finv 5 x)) cA.O.coeffID
        = - (getV csA.coefficients cA.O.coeffID)⁻¹ ∧
      getV s'.values cA.O.wireID
        = (stA.2.computeTerm csA.coefficients cA.M.1 * stA.2.computeTerm csA.coefficients cA.M.2
          + stA.2.computeTerm csA.coefficients cA.L + stA.2.computeTerm csA.coefficients cA.R
          + getV csA.coefficients cA.K)
          * getV (csA.coefficients.map (fun x => - finv 5 x)) cA.O.coeffID ∧
      getV s'.values cA.O.wireID
        = - ((stA.2.computeTerm csA.coefficients cA.M.1 * stA.2.computeTerm csA.coefficients cA.M.2
          + stA.2.computeTerm csA.coefficients cA.L + stA.2.computeTerm csA.coefficients cA.R
          + getV csA.coefficients cA.K) * (getV csA.coefficients cA.O.coeffID)⁻¹)) := by
  haveI : Fact (Nat.Prime 5) := ⟨by norm_num⟩
  have h1 : (2 : ℕ) < 5 := by decide
  have h2 : computeHints csA optA.hintFunctions cA solA = .ok stA := by decide
  have h3 : stA.1 = 2 := by decide
  have h4 : cA.O.wireID < stA.2.values.length := by decide
  exact ⟨h1, h2, h3, h4,
    c9_solveO_value h1 csA optA.hintFunctions cA solA stA h2 h3 h4⟩

/-! The leveled DAG (`internal/dag/dag.go`).  Nodes carry nothing but their
dense id (the `Node` payload plays no role in `Levels`), so a DAG is its
adjacency.  `visited` and `solved` are Go arrays of fixed size `nbNodes`,
modelled as functions. -/

/-- The DAG built by `New` / `AddNode` / `AddEdges`: `parents[n]` is stored
verbatim by `AddEdges(n, parents)`, and `children[q]` accumulates every `n`
with `q ∈ parents[n]` in order of the `AddEdges` calls. -/
structure DAG where
  parents : List (List ℕ)
  children : List (List ℕ)
  nbNodes : ℕ

/-- Parent list of a node (in-bounds read of `dag.parents`). -/
def DAG.par (d : DAG) (n : ℕ) : List ℕ := d.parents.getD n []

/-- Children list of a node (in-bounds read of `dag.children`). -/
def DAG.chi (d : DAG) (n : ℕ) : List ℕ := d.children.getD n []

/-- What the constructor discipline guarantees for a DAG accepted by
`New`/`AddNode`/`AddEdges`: the adjacency arrays are sized `nbNodes`, the
children lists are exactly the transposed parent lists, and every parent has a
strictly smaller id than its child (nodes are appended with dense increasing
ids and only already-existing nodes may be named as parents), which makes the
graph acyclic. -/
structure DAG.WF (d : DAG) : Prop where
  lenP : d.parents.length = d.nbNodes
  lenC : d.children.length = d.nbNodes
  chiSub : ∀ q, q < d.nbNodes → ∀ n ∈ d.chi q, n < d.nbNodes ∧ q ∈ d.par n
  chiFull : ∀ n, n < d.nbNodes → ∀ q ∈ d.par n, n ∈ d.chi q
  parLt : ∀ n, n < d.nbNodes → ∀ q ∈ d.par n, q < n

theorem DAG.WF.par_nil_of_ge {d : DAG} (wf : d.WF) {n : ℕ} (h : ¬ n < d.nbNodes) :
    d.par n = [] := by
  unfold DAG.par
  exact List.getD_eq_default _ _ (by rw [wf.lenP]; omega)

theorem DAG.WF.chi_mem {d : DAG} (wf : d.WF) {q n : ℕ} :
    n ∈ d.chi q ↔ n < d.nbNodes ∧ q ∈ d.par n := by
  constructor
  · intro h
    by_cases hq : q < d.nbNodes
    · exact wf.chiSub q hq n h
    · exfalso
      have : d.chi q = [] := by
        unfold DAG.chi
        exact List.getD_eq_default _ _ (by rw [wf.lenC]; omega)
      rw [this] at h
      exact absurd h (List.not_mem_nil n)
  · rintro ⟨hn, hq⟩
    exact wf.chiFull n hn q hq

/-- Result of one wavefront round of `Levels`: the updated `visited` tags, the
nodes placed into the round's level, and the work pushed for the next round. -/
structure RoundOut where
  visited : ℕ → ℕ
  lvlNodes : List ℕ
  nxt : List ℕ

/-- One wavefront round of `Levels` (`dag.go`, the worker body), processing
the round's work list in the given order.  The `visited` swap skips nodes
already inspected this round; a node with an unsolved parent is deferred to
the next round; a placed node pushes its children.  The workers' interleaving
is captured by quantifying over the processing order (`LevelsSched`): the
atomic swap makes whichever worker reaches a duplicated node first process it,
and every node's outcome depends only on `solved`, which is frozen during a
round. -/
def roundGo (d : DAG) (lvl : ℕ) (solved : ℕ → Bool) : List ℕ → (ℕ → ℕ) → RoundOut
  | [], vis => ⟨vis, [], []⟩
  | n :: rest, vis =>
    if vis n = lvl then roundGo d lvl solved rest vis
    else
      let out := roundGo d lvl solved rest (Function.update vis n lvl)
      if (d.par n).any (fun j => ! solved j) then
        ⟨out.visited, out.lvlNodes, n :: out.nxt⟩
      else
        ⟨out.visited, n :: out.lvlNodes, d.chi n ++ out.nxt⟩

/-- Loop state of `Levels`: round counter, work list, `visited` tags, `solved`
marks and the accumulated levels. -/
structure LoopSt where
  lvl : ℕ
  current : List ℕ
  visited : ℕ → ℕ
  solved : ℕ → Bool
  levels : List (List ℕ)

/-- The round loop of `Levels` (`dag.go`).  `sched` reorders each round's work
list (covering every interleaving of the workers' slices); `fuel` bounds the
number of rounds — the Go loop is unbounded, and for a constructor-accepted
DAG `nbNodes` rounds always finish the work (`c7_every_node_in_exactly_one_level`).
After a round, the placed nodes are marked solved (`solved[n] = true` for each
node of the new level) and the pushed work becomes the next round's list. -/
def loopGo (d : DAG) (sched : ℕ → List ℕ → List ℕ) : ℕ → LoopSt → LoopSt
  | 0, st => st
  | fuel + 1, st =>
    if st.current = [] then st
    else
      loopGo d sched fuel
        ⟨st.lvl + 1,
         (roundGo d (st.lvl + 1) st.solved (sched (st.lvl + 1) st.current) st.visited).nxt,
         (roundGo d (st.lvl + 1) st.solved (sched (st.lvl + 1) st.current) st.visited).visited,
         fun j => st.solved j ||
           (roundGo d (st.lvl + 1) st.solved (sched (st.lvl + 1) st.current)
             st.visited).lvlNodes.contains j,
         st.levels ++
           [(roundGo d (st.lvl + 1) st.solved (sched (st.lvl + 1) st.current)
             st.visited).lvlNodes]⟩

/-- The entry pass of `Levels` (`dag.go`): nodes without parents are marked
solved, their children (in id order) seed the work list, and the entry nodes
themselves form level 0 in id order. -/
def entryInit (d : DAG) : List ℕ × List ℕ × (ℕ → Bool) :=
  ((List.range d.nbNodes).flatMap (fun i => if d.par i = [] then d.chi i else []),
   (List.range d.nbNodes).filter (fun i => decide (d.par i = [])),
   fun j => decide (j < d.nbNodes) && decide (d.par j = []))

/-- `Levels()` under an explicit schedule: the entry pass, the wavefront
rounds (fuel `nbNodes`, which suffices for constructor-accepted DAGs), and the
finishing pass that sorts every level ascending by node id (`sort.Ints`). -/
def LevelsSched (d : DAG) (sched : ℕ → List ℕ → List ℕ) : List (List ℕ) :=
  (loopGo d sched d.nbNodes
      ⟨0, (entryInit d).1, fun _ => 0, (entryInit d).2.2, [(entryInit d).2.1]⟩).levels.map
    (fun l => l.insertionSort (· ≤ ·))

/-- `Levels()` with the canonical (single-worker, in-order) schedule. -/
def DAG.Levels (d : DAG) : List (List ℕ) := LevelsSched d (fun _ c => c)

/-- The fork/join DAG of the repository's test (`TestDAGReductionFork`,
without the disabled transitivity reduction): five nodes, `3` depends on
`1, 2`, and `4` depends on everything. -/
def dEx : DAG :=
  ⟨[[], [], [], [1, 2], [0, 1, 2, 3]], [[4], [3, 4], [3, 4], [4], []], 5⟩

/-- Sanity anchor: the levels of the fork/join DAG. -/
theorem dEx_levels : dEx.Levels = [[0, 1, 2], [3], [4]] := by decide

/-- Whether some parent of `n` is still unsolved (the deferral test of the
worker body). -/
def anyUnsolved (d : DAG) (solved : ℕ → Bool) (n : ℕ) : Bool :=
  (d.par n).any (fun j => ! solved j)

theorem roundGo_nil (d : DAG) (lvl : ℕ) (solved : ℕ → Bool) (vis : ℕ → ℕ) :
    roundGo d lvl solved [] vis = ⟨vis, [], []⟩ := rfl

theorem roundGo_cons (d : DAG) (lvl : ℕ) (solved : ℕ → Bool) (n : ℕ) (rest : List ℕ)
    (vis : ℕ → ℕ) :
    roundGo d lvl solved (n :: rest) vis =
      if vis n = lvl then roundGo d lvl solved rest vis
      else if anyUnsolved d solved n then
        ⟨(roundGo d lvl solved rest (Function.update vis n lvl)).visited,
         (roundGo d lvl solved rest (Function.update vis n lvl)).lvlNodes,
         n :: (roundGo d lvl solved rest (Function.update vis n lvl)).nxt⟩
      else
        ⟨(roundGo d lvl solved rest (Function.update vis n lvl)).visited,
         n :: (roundGo d lvl solved rest (Function.update vis n lvl)).lvlNodes,
         d.chi n ++ (roundGo d lvl solved rest (Function.update vis n lvl)).nxt⟩ := rfl

/-- Pointwise effect of a round on `visited`: every node of the work list ends
tagged with the round number, everything else is untouched. -/
theorem roundGo_visited (d : DAG) (lvl : ℕ) (solved : ℕ → Bool) :
    ∀ (cur : List ℕ) (vis : ℕ → ℕ) (j : ℕ),
      (roundGo d lvl solved cur vis).visited j = if j ∈ cur then lvl else vis j := by
  intro cur
  induction cur with
  | nil => intro vis j; simp [roundGo_nil]
  | cons n rest ih =>
    intro vis j
    rw [roundGo_cons]
    have hupd : ∀ h : ℕ → ℕ → RoundOut,
        True := fun _ => trivial
    by_cases hv : vis n = lvl
    · rw [if_pos hv, ih vis j]
      by_cases hj : j ∈ rest
      · rw [if_pos hj, if_pos (List.mem_cons_of_mem n hj)]
      · rw [if_neg hj]
        by_cases hjn : j = n
        · rw [if_pos (by rw [hjn]; exact List.mem_cons_self n rest), hjn, hv]
        · rw [if_neg (by
            intro hmem
            rcases List.mem_cons.mp hmem with h | h
            · exact hjn h
            · exact hj h)]
    · rw [if_neg hv]
      have hrec := ih (Function.update vis n lvl) j
      have hgoal : (roundGo d lvl solved rest (Function.update vis n lvl)).visited j
          = if j ∈ n :: rest then lvl else vis j := by
        rw [hrec]
        by_cases hj : j ∈ rest
        · rw [if_pos hj, if_pos (List.mem_cons_of_mem n hj)]
        · rw [if_neg hj]
          by_cases hjn : j = n
          · rw [if_pos (by rw [hjn]; exact List.mem_cons_self n rest), hjn,
              Function.update_same]
          · rw [if_neg (by
              intro hmem
              rcases List.mem_cons.mp hmem with h | h
              · exact hjn h
              · exact hj h),
              Function.update_noteq hjn]
      by_cases hd : anyUnsolved d solved n
      · rw [if_pos hd]; exact hgoal
      · rw [if_neg hd]; exact hgoal

/-- Membership in a round's level: exactly the distinct nodes of the work list
that were not already inspected this round and whose parents are all solved. -/
theorem roundGo_lvl_mem (d : DAG) (lvl : ℕ) (solved : ℕ → Bool) :
    ∀ (cur : List ℕ) (vis : ℕ → ℕ) (m : ℕ),
      m ∈ (roundGo d lvl solved cur vis).lvlNodes ↔
        (m ∈ cur ∧ vis m ≠ lvl ∧ anyUnsolved d solved m = false) := by
  intro cur
  induction cur with
  | nil => intro vis m; simp [roundGo_nil]
  | cons n rest ih =>
    intro vis m
    rw [roundGo_cons]
    by_cases hv : vis n = lvl
    · rw [if_pos hv, ih vis m]
      constructor
      · rintro ⟨h1, h2, h3⟩
        exact ⟨List.mem_cons_of_mem n h1, h2, h3⟩
      · rintro ⟨h1, h2, h3⟩
        rcases List.mem_cons.mp h1 with he | he
        · exact absurd (he ▸ hv) h2
        · exact ⟨he, h2, h3⟩
    · rw [if_neg hv]
      have key : ∀ m, m ∈ (roundGo d lvl solved rest (Function.update vis n lvl)).lvlNodes ↔
          (m ∈ rest ∧ m ≠ n ∧ vis m ≠ lvl ∧ anyUnsolved d solved m = false) := by
        intro m'
        rw [ih (Function.update vis n lvl) m']
        constructor
        · rintro ⟨h1, h2, h3⟩
          by_cases hmn : m' = n
          · exact absurd (Function.update_same n lvl vis) (hmn ▸ h2)
          · exact ⟨h1, hmn, by rwa [Function.update_noteq hmn] at h2, h3⟩
        · rintro ⟨h1, h2, h3, h4⟩
          exact ⟨h1, by rwa [Function.update_noteq h2], h4⟩
      by_cases hd : anyUnsolved d solved n
      · rw [if_pos hd]
        show m ∈ (roundGo d lvl solved rest (Function.update vis n lvl)).lvlNodes ↔ _
        rw [key m]
        constructor
        · rintro ⟨h1, h2, h3, h4⟩
          exact ⟨List.mem_cons_of_mem n h1, h3, h4⟩
        · rintro ⟨h1, h2, h3⟩
          have hmn : m ≠ n := by
            intro he
            rw [he, hd] at h3
            simp at h3
          rcases List.mem_cons.mp h1 with he | he
          · exact absurd he hmn
          · exact ⟨he, hmn, h2, h3⟩
      · rw [if_neg hd]
        show m ∈ n :: (roundGo d lvl solved rest (Function.update vis n lvl)).lvlNodes ↔ _
        rw [List.mem_cons, key m]
        constructor
        · have hfd : anyUnsolved d solved n = false := by simpa using hd
          rintro (he | ⟨h1, h2, h3, h4⟩)
          · exact ⟨he ▸ List.mem_cons_self n rest, he ▸ hv, he ▸ hfd⟩
          · exact ⟨List.mem_cons_of_mem n h1, h3, h4⟩
        · rintro ⟨h1, h2, h3⟩
          by_cases hmn : m = n
          · exact Or.inl hmn
          · rcases List.mem_cons.mp h1 with he | he
            · exact absurd he hmn
            · exact Or.inr ⟨he, hmn, h2, h3⟩

/-- Membership in a round's pushed work: the deferred nodes plus the children
of the placed nodes. -/
theorem roundGo_nxt_mem (d : DAG) (lvl : ℕ) (solved : ℕ → Bool) :
    ∀ (cur : List ℕ) (vis : ℕ → ℕ) (m : ℕ),
      m ∈ (roundGo d lvl solved cur vis).nxt ↔
        ((m ∈ cur ∧ vis m ≠ lvl ∧ anyUnsolved d solved m = true) ∨
         ∃ q, (q ∈ cur ∧ vis q ≠ lvl ∧ anyUnsolved d solved q = false) ∧ m ∈ d.chi q) := by
  intro cur
  induction cur with
  | nil => intro vis m; simp [roundGo_nil]
  | cons n rest ih =>
    intro vis m
    rw [roundGo_cons]
    by_cases hv : vis n = lvl
    · rw [if_pos hv, ih vis m]
      constructor
      · rintro (⟨h1, h2, h3⟩ | ⟨q, ⟨h1, h2, h3⟩, h4⟩)
        · exact Or.inl ⟨List.mem_cons_of_mem n h1, h2, h3⟩
        · exact Or.inr ⟨q, ⟨List.mem_cons_of_mem n h1, h2, h3⟩, h4⟩
      · rintro (⟨h1, h2, h3⟩ | ⟨q, ⟨h1, h2, h3⟩, h4⟩)
        · rcases List.mem_cons.mp h1 with he | he
          · exact absurd (he ▸ hv) h2
          · exact Or.inl ⟨he, h2, h3⟩
        · rcases List.mem_cons.mp h1 with he | he
          · exact absurd (he ▸ hv) h2
          · exact Or.inr ⟨q, ⟨he, h2, h3⟩, h4⟩
    · rw [if_neg hv]
      have key : ∀ m', m' ∈ (roundGo d lvl solved rest (Function.update vis n lvl)).nxt ↔
          ((m' ∈ rest ∧ m' ≠ n ∧ vis m' ≠ lvl ∧ anyUnsolved d solved m' = true) ∨
           ∃ q, (q ∈ rest ∧ q ≠ n ∧ vis q ≠ lvl ∧ anyUnsolved d solved q = false)
             ∧ m' ∈ d.chi q) := by
        intro m'
        rw [ih (Function.update vis n lvl) m']
        constructor
        · rintro (⟨h1, h2, h3⟩ | ⟨q, ⟨h1, h2, h3⟩, h4⟩)
          · by_cases hmn : m' = n
            · exact absurd (Function.update_same n lvl vis) (hmn ▸ h2)
            · exact Or.inl ⟨h1, hmn, by rwa [Function.update_noteq hmn] at h2, h3⟩
          · by_cases hqn : q = n
            · exact absurd (Function.update_same n lvl vis) (hqn ▸ h2)
            · exact Or.inr ⟨q, ⟨h1, hqn, by rwa [Function.update_noteq hqn] at h2, h3⟩, h4⟩
        · rintro (⟨h1, h2, h3, h4⟩ | ⟨q, ⟨h1, h2, h3, h4⟩, h5⟩)
          · exact Or.inl ⟨h1, by rwa [Function.update_noteq h2], h4⟩
          · exact Or.inr ⟨q, ⟨h1, by rwa [Function.update_noteq h2], h4⟩, h5⟩
      by_cases hd : anyUnsolved d solved n
      · rw [if_pos hd]
        show m ∈ n :: (roundGo d lvl solved rest (Function.update vis n lvl)).nxt ↔ _
        rw [List.mem_cons, key m]
        constructor
        · rintro (he | (⟨h1, h2, h3, h4⟩ | ⟨q, ⟨h1, h2, h3, h4⟩, h5⟩))
          · exact Or.inl ⟨he ▸ List.mem_cons_self n rest, he ▸ hv, he ▸ hd⟩
          · exact Or.inl ⟨List.mem_cons_of_mem n h1, h3, h4⟩
          · exact Or.inr ⟨q, ⟨List.mem_cons_of_mem n h1, h3, h4⟩, h5⟩
        · rintro (⟨h1, h2, h3⟩ | ⟨q, ⟨h1, h2, h3⟩, h4⟩)
          · by_cases hmn : m = n
            · exact Or.inl hmn
            · rcases List.mem_cons.mp h1 with he | he
              · exact absurd he hmn
              · exact Or.inr (Or.inl ⟨he, hmn, h2, h3⟩)
          · by_cases hqn : q = n
            · rw [hqn, hd] at h3
              exact absurd h3 (by simp)
            · rcases List.mem_cons.mp h1 with he | he
              · exact absurd he hqn
              · exact Or.inr (Or.inr ⟨q, ⟨he, hqn, h2, h3⟩, h4⟩)
      · rw [if_neg hd]
        show m ∈ d.chi n ++ (roundGo d lvl solved rest (Function.update vis n lvl)).nxt ↔ _
        rw [List.mem_append, key m]
        constructor
        · rintro (hc | (⟨h1, h2, h3, h4⟩ | ⟨q, ⟨h1, h2, h3, h4⟩, h5⟩))
          · exact Or.inr ⟨n, ⟨List.mem_cons_self n rest, hv,
              by simpa using hd⟩, hc⟩
          · exact Or.inl ⟨List.mem_cons_of_mem n h1, h3, h4⟩
          · exact Or.inr ⟨q, ⟨List.mem_cons_of_mem n h1, h3, h4⟩, h5⟩
        · rintro (⟨h1, h2, h3⟩ | ⟨q, ⟨h1, h2, h3⟩, h4⟩)
          · by_cases hmn : m = n
            · rw [hmn, show anyUnsolved d solved n = false by simpa using hd] at h3
              exact absurd h3 (by simp)
            · rcases List.mem_cons.mp h1 with he | he
              · exact absurd he hmn
              · exact Or.inr (Or.inl ⟨he, hmn, h2, h3⟩)
          · by_cases hqn : q = n
            · exact Or.inl (hqn ▸ h4)
            · rcases List.mem_cons.mp h1 with he | he
              · exact absurd he hqn
              · exact Or.inr (Or.inr ⟨q, ⟨he, hqn, h2, h3⟩, h4⟩)

/-- A round's level has no duplicate nodes (the `visited` swap deduplicates). -/
theorem roundGo_lvl_nodup (d : DAG) (lvl : ℕ) (solved : ℕ → Bool) :
    ∀ (cur : List ℕ) (vis : ℕ → ℕ), (roundGo d lvl solved cur vis).lvlNodes.Nodup := by
  intro cur
  induction cur with
  | nil => intro vis; simp [roundGo_nil]
  | cons n rest ih =>
    intro vis
    rw [roundGo_cons]
    by_cases hv : vis n = lvl
    · rw [if_pos hv]; exact ih vis
    · rw [if_neg hv]
      by_cases hd : anyUnsolved d solved n
      · rw [if_pos hd]
        exact ih (Function.update vis n lvl)
      · rw [if_neg hd]
        show (n :: (roundGo d lvl solved rest (Function.update vis n lvl)).lvlNodes).Nodup
        refine List.Nodup.cons ?_ (ih (Function.update vis n lvl))
        intro hmem
        have := (roundGo_lvl_mem d lvl solved rest (Function.update vis n lvl) n).mp hmem
        exact this.2.1 (Function.update_same n lvl vis)

/-! Determinism of `Levels` across schedules (C8). -/

theorem perm_of_nodup_of_mem_iff {l₁ l₂ : List ℕ} (h₁ : l₁.Nodup) (h₂ : l₂.Nodup)
    (hm : ∀ a, a ∈ l₁ ↔ a ∈ l₂) : List.Perm l₁ l₂ := by
  refine List.perm_iff_count.mpr (fun a => ?_)
  by_cases hc : a ∈ l₁
  · rw [List.count_eq_one_of_mem h₁ hc, List.count_eq_one_of_mem h₂ ((hm a).mp hc)]
  · rw [List.count_eq_zero_of_not_mem hc,
      List.count_eq_zero_of_not_mem (fun hc2 => hc ((hm a).mpr hc2))]

theorem getD_concat {α : Type} (L : List α) (a d : α) :
    ∀ k, (L ++ [a]).getD k d = if k < L.length then L.getD k d
      else if k = L.length then a else d := by
  induction L with
  | nil =>
    intro k
    cases k with
    | zero => rfl
    | succ j => simp [List.getD]
  | cons b L ih =>
    intro k
    cases k with
    | zero => simp
    | succ j =>
      rw [List.cons_append, List.getD_cons_succ, ih j, List.length_cons]
      by_cases h1 : j < L.length
      · rw [if_pos h1, if_pos (by omega), List.getD_cons_succ]
      · rw [if_neg h1]
        by_cases h2 : j = L.length
        · rw [if_pos h2, if_neg (by omega), if_pos (by omega)]
        · rw [if_neg h2, if_neg (by omega), if_neg (by omega)]

/-- One round computes, up to ordering, the same outcome from any two work
lists with the same underlying node set: identical `visited` tags, a permuted
level and a next work list with the same node set. -/
theorem roundGo_mem_invariant (d : DAG) (lvl : ℕ) (solved : ℕ → Bool)
    (cur₁ cur₂ : List ℕ) (vis : ℕ → ℕ) (hm : ∀ a, a ∈ cur₁ ↔ a ∈ cur₂) :
    (roundGo d lvl solved cur₁ vis).visited = (roundGo d lvl solved cur₂ vis).visited ∧
    List.Perm (roundGo d lvl solved cur₁ vis).lvlNodes
      (roundGo d lvl solved cur₂ vis).lvlNodes ∧
    (∀ a, a ∈ (roundGo d lvl solved cur₁ vis).nxt ↔ a ∈ (roundGo d lvl solved cur₂ vis).nxt) := by
  refine ⟨?_, ?_, ?_⟩
  · funext j
    rw [roundGo_visited, roundGo_visited]
    by_cases hj : j ∈ cur₁
    · rw [if_pos hj, if_pos ((hm j).mp hj)]
    · rw [if_neg hj, if_neg (fun hj2 => hj ((hm j).mpr hj2))]
  · refine perm_of_nodup_of_mem_iff (roundGo_lvl_nodup d lvl solved cur₁ vis)
      (roundGo_lvl_nodup d lvl solved cur₂ vis) (fun a => ?_)
    rw [roundGo_lvl_mem, roundGo_lvl_mem, hm a]
  · intro a
    rw [roundGo_nxt_mem, roundGo_nxt_mem]
    constructor
    · rintro (⟨ha, h2, h3⟩ | ⟨q, ⟨hq, h2, h3⟩, h4⟩)
      · exact Or.inl ⟨(hm a).mp ha, h2, h3⟩
      · exact Or.inr ⟨q, ⟨(hm q).mp hq, h2, h3⟩, h4⟩
    · rintro (⟨ha, h2, h3⟩ | ⟨q, ⟨hq, h2, h3⟩, h4⟩)
      · exact Or.inl ⟨(hm a).mpr ha, h2, h3⟩
      · exact Or.inr ⟨q, ⟨(hm q).mpr hq, h2, h3⟩, h4⟩

theorem contains_eq_of_mem_iff {l₁ l₂ : List ℕ} (h : ∀ a, a ∈ l₁ ↔ a ∈ l₂) (j : ℕ) :
    l₁.contains j = l₂.contains j := by
  rw [Bool.eq_iff_iff, List.elem_iff, List.elem_iff]
  exact h j

/-- Congruence form of `roundGo_mem_invariant` for syntactically different but
equal round inputs. -/
theorem roundGo_invariant₂ (d : DAG) (lvl₁ lvl₂ : ℕ) (solved₁ solved₂ : ℕ → Bool)
    (cur₁ cur₂ : List ℕ) (vis₁ vis₂ : ℕ → ℕ)
    (hl : lvl₁ = lvl₂) (hs : solved₁ = solved₂) (hv : vis₁ = vis₂)
    (hm : ∀ a, a ∈ cur₁ ↔ a ∈ cur₂) :
    (roundGo d lvl₁ solved₁ cur₁ vis₁).visited = (roundGo d lvl₂ solved₂ cur₂ vis₂).visited ∧
    List.Perm (roundGo d lvl₁ solved₁ cur₁ vis₁).lvlNodes
      (roundGo d lvl₂ solved₂ cur₂ vis₂).lvlNodes ∧
    (∀ a, a ∈ (roundGo d lvl₁ solved₁ cur₁ vis₁).nxt
      ↔ a ∈ (roundGo d lvl₂ solved₂ cur₂ vis₂).nxt) := by
  subst hl hs hv
  exact roundGo_mem_invariant d lvl₁ solved₁ cur₁ cur₂ vis₁ hm

/-- The round loop produces, from any two membership-equal states under any
two valid schedules, level lists of the same length that agree up to
per-level permutation. -/
theorem loopGo_sched_invariant (d : DAG) (sched₁ sched₂ : ℕ → List ℕ → List ℕ)
    (hs₁ : ∀ k c, List.Perm (sched₁ k c) c) (hs₂ : ∀ k c, List.Perm (sched₂ k c) c) :
    ∀ (fuel : ℕ) (st₁ st₂ : LoopSt),
      st₁.lvl = st₂.lvl →
      (∀ a, a ∈ st₁.current ↔ a ∈ st₂.current) →
      st₁.visited = st₂.visited →
      st₁.solved = st₂.solved →
      st₁.levels.length = st₂.levels.length →
      (∀ k, List.Perm (st₁.levels.getD k []) (st₂.levels.getD k [])) →
      (loopGo d sched₁ fuel st₁).levels.length = (loopGo d sched₂ fuel st₂).levels.length ∧
      ∀ k, List.Perm ((loopGo d sched₁ fuel st₁).levels.getD k [])
        ((loopGo d sched₂ fuel st₂).levels.getD k []) := by
  intro fuel
  induction fuel with
  | zero => intro st₁ st₂ _ _ _ _ h5 h6; exact ⟨h5, h6⟩
  | succ fuel ih =>
    intro st₁ st₂ h1 h2 h3 h4 h5 h6
    by_cases hc : st₁.current = []
    · have hc₂ : st₂.current = [] := by
        rw [List.eq_nil_iff_forall_not_mem]
        intro a ha
        rw [List.eq_nil_iff_forall_not_mem] at hc
        exact hc a ((h2 a).mpr ha)
      rw [loopGo, loopGo, if_pos hc, if_pos hc₂]
      exact ⟨h5, h6⟩
    · have hc₂ : ¬ st₂.current = [] := by
        intro he
        rcases List.exists_mem_of_ne_nil st₁.current hc with ⟨a, ha⟩
        rw [List.eq_nil_iff_forall_not_mem] at he
        exact he a ((h2 a).mp ha)
      rw [loopGo, loopGo, if_neg hc, if_neg hc₂]
      have hmem : ∀ a, a ∈ sched₁ (st₁.lvl + 1) st₁.current
          ↔ a ∈ sched₂ (st₂.lvl + 1) st₂.current := by
        intro a
        rw [(hs₁ (st₁.lvl + 1) st₁.current).mem_iff, (hs₂ (st₂.lvl + 1) st₂.current).mem_iff]
        exact h2 a
      obtain ⟨hv', hl', hn'⟩ := roundGo_invariant₂ d (st₁.lvl + 1) (st₂.lvl + 1)
        st₁.solved st₂.solved (sched₁ (st₁.lvl + 1) st₁.current)
        (sched₂ (st₂.lvl + 1) st₂.current) st₁.visited st₂.visited
        (by rw [h1]) h4 h3 hmem
      refine ih _ _ (by rw [h1]) hn' hv' ?_ ?_ ?_
      · funext j
        have e1 := congrFun h4 j
        have e2 := contains_eq_of_mem_iff (fun a => hl'.mem_iff) j
        simp only [e1, e2]
      · simp only [List.length_append, List.length_cons, List.length_nil]
        omega
      · intro k
        rw [getD_concat, getD_concat, h5]
        by_cases hk1 : k < st₂.levels.length
        · rw [if_pos hk1, if_pos hk1]
          exact h6 k
        · rw [if_neg hk1]
          by_cases hk2 : k = st₂.levels.length
          · rw [if_pos hk2, if_neg hk1, if_pos hk2]
            exact hl'
          · rw [if_neg hk2, if_neg hk1, if_neg hk2]

theorem list_eq_of_getD {α : Type} : ∀ (l₁ l₂ : List α) (d : α),
    l₁.length = l₂.length → (∀ k, l₁.getD k d = l₂.getD k d) → l₁ = l₂ := by
  intro l₁
  induction l₁ with
  | nil =>
    intro l₂ d hl _
    cases l₂ with
    | nil => rfl
    | cons b l₂ => simp at hl
  | cons a l ih =>
    intro l₂ d hl hg
    cases l₂ with
    | nil => simp at hl
    | cons b l₂ =>
      have h0 : a = b := by
        have := hg 0
        simpa using this
      have htl : l = l₂ := ih l₂ d (by simpa using hl) (fun k => by simpa using hg (k + 1))
      rw [h0, htl]

theorem sort_eq_of_perm {l₁ l₂ : List ℕ} (h : List.Perm l₁ l₂) :
    l₁.insertionSort (· ≤ ·) = l₂.insertionSort (· ≤ ·) :=
  List.eq_of_perm_of_sorted
    ((List.perm_insertionSort _ l₁).trans (h.trans (List.perm_insertionSort _ l₂).symm))
    (List.sorted_insertionSort _ l₁) (List.sorted_insertionSort _ l₂)

theorem getD_map_sort (L : List (List ℕ)) (k : ℕ) :
    (L.map (fun l => l.insertionSort (· ≤ ·))).getD k []
      = (L.getD k []).insertionSort (· ≤ ·) :=
  getD_map_comm (fun l => l.insertionSort (· ≤ ·)) L [] k

/-- C8 (confirmed): for a fixed DAG, `Levels()` is deterministic across worker
schedulings — any two runs, each round of each run processing an arbitrary
permutation of the round's work list, produce identical level sequences, and
every level of the output is sorted ascending by node id (the finishing
pass). -/
theorem c8_levels_deterministic (d : DAG) (sched₁ sched₂ : ℕ → List ℕ → List ℕ)
    (hs₁ : ∀ k c, List.Perm (sched₁ k c) c) (hs₂ : ∀ k c, List.Perm (sched₂ k c) c) :
    LevelsSched d sched₁ = LevelsSched d sched₂ ∧
    ∀ l ∈ LevelsSched d sched₁, List.Sorted (· ≤ ·) l := by
  obtain ⟨hlen, hperm⟩ := loopGo_sched_invariant d sched₁ sched₂ hs₁ hs₂ d.nbNodes
    ⟨0, (entryInit d).1, fun _ => 0, (entryInit d).2.2, [(entryInit d).2.1]⟩
    ⟨0, (entryInit d).1, fun _ => 0, (entryInit d).2.2, [(entryInit d).2.1]⟩
    rfl (fun _ => Iff.rfl) rfl rfl rfl (fun _ => List.Perm.refl _)
  constructor
  · unfold LevelsSched
    refine list_eq_of_getD _ _ [] (by simpa using hlen) (fun k => ?_)
    rw [getD_map_sort, getD_map_sort]
    exact sort_eq_of_perm (hperm k)
  · intro l hl
    unfold LevelsSched at hl
    rcases List.mem_map.mp hl with ⟨l', _, rfl⟩
    exact List.sorted_insertionSort _ l'

/-- Witness for C8: the identity schedule and the reversing schedule on the
fork/join DAG yield the same sorted level sequence. -/
theorem c8_levels_deterministic_witness :
    (∀ (k : ℕ) (c : List ℕ), List.Perm ((fun _ c => c : ℕ → List ℕ → List ℕ) k c) c) ∧
    (∀ (k : ℕ) (c : List ℕ),
      List.Perm ((fun _ c => c.reverse : ℕ → List ℕ → List ℕ) k c) c) ∧
    (LevelsSched dEx (fun _ c => c) = LevelsSched dEx (fun _ c => c.reverse) ∧
     ∀ l ∈ LevelsSched dEx (fun _ c => c), List.Sorted (· ≤ ·) l) :=
  ⟨fun _ c => List.Perm.refl c, fun _ c => c.reverse_perm,
   c8_levels_deterministic dEx (fun _ c => c) (fun _ c => c.reverse)
     (fun _ c => List.Perm.refl c) (fun _ c => c.reverse_perm)⟩

/-! Invariants of the round loop (C6, C7). -/

theorem anyUnsolved_eq_false {d : DAG} {solved : ℕ → Bool} {n : ℕ} :
    anyUnsolved d solved n = false ↔ ∀ q ∈ d.par n, solved q = true := by
  unfold anyUnsolved
  constructor
  · intro h q hq
    by_contra hns
    have : (d.par n).any (fun j => ! solved j) = true :=
      List.any_eq_true.mpr ⟨q, hq, by simp [Bool.not_eq_true] at hns ⊢; exact hns⟩
    rw [h] at this
    exact absurd this (by simp)
  · intro h
    by_contra hne
    have : (d.par n).any (fun j => ! solved j) = true := by
      cases hx : (d.par n).any (fun j => ! solved j) with
      | true => rfl
      | false => exact absurd hx hne
    obtain ⟨q, hq, hqq⟩ := List.any_eq_true.mp this
    rw [h q hq] at hqq
    exact absurd hqq (by simp)

theorem anyUnsolved_eq_true {d : DAG} {solved : ℕ → Bool} {n : ℕ} :
    anyUnsolved d solved n = true ↔ ∃ q ∈ d.par n, solved q = false := by
  unfold anyUnsolved
  rw [List.any_eq_true]
  constructor
  · rintro ⟨q, hq, hqq⟩
    exact ⟨q, hq, by simpa using hqq⟩
  · rintro ⟨q, hq, hqq⟩
    exact ⟨q, hq, by simpa using hqq⟩

/-- The invariants the round loop maintains for a constructor-accepted DAG:
`solved` marks exactly the nodes already placed in some level; the work list
holds only in-range unsolved nodes; solved nodes have solved parents; every
unsolved node whose parents are all solved is on the work list; `visited` tags
never exceed the round counter; levels are duplicate-free and pairwise
disjoint; and every node's parents lie in strictly earlier levels. -/
structure LoopInv (d : DAG) (st : LoopSt) : Prop where
  agrees : ∀ j, st.solved j = true ↔ ∃ k, k < st.levels.length ∧ j ∈ st.levels.getD k []
  curBound : ∀ n ∈ st.current, n < d.nbNodes ∧ st.solved n = false
  closed : ∀ n, st.solved n = true → ∀ q ∈ d.par n, st.solved q = true
  front : ∀ n, n < d.nbNodes → st.solved n = false →
    (∀ q ∈ d.par n, st.solved q = true) → n ∈ st.current
  visLt : ∀ j, st.visited j ≤ st.lvl
  nodupLvl : ∀ k, (st.levels.getD k []).Nodup
  disjLvl : ∀ k₁ k₂ j, k₁ < st.levels.length → k₂ < st.levels.length →
    j ∈ st.levels.getD k₁ [] → j ∈ st.levels.getD k₂ [] → k₁ = k₂
  monoLvl : ∀ k j q, j ∈ st.levels.getD k [] → q ∈ d.par j →
    ∃ i, i < k ∧ q ∈ st.levels.getD i []

/-- One round preserves the loop invariants. -/
theorem loopInv_step (d : DAG) (wf : d.WF) (st : LoopSt) (inv : LoopInv d st)
    (cur : List ℕ) (hcur : ∀ a, a ∈ cur ↔ a ∈ st.current) :
    LoopInv d ⟨st.lvl + 1,
      (roundGo d (st.lvl + 1) st.solved cur st.visited).nxt,
      (roundGo d (st.lvl + 1) st.solved cur st.visited).visited,
      fun j => st.solved j
        || (roundGo d (st.lvl + 1) st.solved cur st.visited).lvlNodes.contains j,
      st.levels ++ [(roundGo d (st.lvl + 1) st.solved cur st.visited).lvlNodes]⟩ := by
  have hplaced : ∀ j, j ∈ (roundGo d (st.lvl + 1) st.solved cur st.visited).lvlNodes ↔
      (j ∈ st.current ∧ anyUnsolved d st.solved j = false) := by
    intro j
    rw [roundGo_lvl_mem]
    constructor
    · rintro ⟨h1, _, h3⟩
      exact ⟨(hcur j).mp h1, h3⟩
    · rintro ⟨h1, h3⟩
      exact ⟨(hcur j).mpr h1, by have := inv.visLt j; omega, h3⟩
  have hnxt : ∀ j, j ∈ (roundGo d (st.lvl + 1) st.solved cur st.visited).nxt ↔
      ((j ∈ st.current ∧ anyUnsolved d st.solved j = true) ∨
       ∃ q, (q ∈ st.current ∧ anyUnsolved d st.solved q = false) ∧ j ∈ d.chi q) := by
    intro j
    rw [roundGo_nxt_mem]
    constructor
    · rintro (⟨h1, _, h3⟩ | ⟨q, ⟨h1, _, h3⟩, h4⟩)
      · exact Or.inl ⟨(hcur j).mp h1, h3⟩
      · exact Or.inr ⟨q, ⟨(hcur q).mp h1, h3⟩, h4⟩
    · rintro (⟨h1, h3⟩ | ⟨q, ⟨h1, h3⟩, h4⟩)
      · exact Or.inl ⟨(hcur j).mpr h1, by have := inv.visLt j; omega, h3⟩
      · exact Or.inr ⟨q, ⟨(hcur q).mpr h1, by have := inv.visLt q; omega, h3⟩, h4⟩
  have hsol : ∀ j, (st.solved j
      || (roundGo d (st.lvl + 1) st.solved cur st.visited).lvlNodes.contains j) = true ↔
      (st.solved j = true ∨ (j ∈ st.current ∧ anyUnsolved d st.solved j = false)) := by
    intro j
    rw [Bool.or_eq_true, List.elem_iff, hplaced j]
  have hplacedUnsolved : ∀ j, j ∈ (roundGo d (st.lvl + 1) st.solved cur st.visited).lvlNodes →
      st.solved j = false := by
    intro j hj
    exact (inv.curBound j ((hplaced j).mp hj).1).2
  refine ⟨?_, ?_, ?_, ?_, ?_, ?_, ?_, ?_⟩
  · -- agrees
    intro j
    rw [hsol j]
    constructor
    · rintro (hs | hpl)
      · obtain ⟨k, hk, hjk⟩ := (inv.agrees j).mp hs
        refine ⟨k, by simp; omega, ?_⟩
        rw [getD_concat, if_pos hk]
        exact hjk
      · refine ⟨st.levels.length, by simp, ?_⟩
        rw [getD_concat, if_neg (by omega), if_pos rfl]
        exact (hplaced j).mpr hpl
    · rintro ⟨k, hk, hjk⟩
      rw [getD_concat] at hjk
      by_cases hk1 : k < st.levels.length
      · rw [if_pos hk1] at hjk
        exact Or.inl ((inv.agrees j).mpr ⟨k, hk1, hjk⟩)
      · rw [if_neg hk1, if_pos (by simp at hk; omega)] at hjk
        exact Or.inr ((hplaced j).mp hjk)
  · -- curBound
    intro n hn
    rw [hnxt n] at hn
    rcases hn with ⟨h1, h3⟩ | ⟨q, ⟨h1, h3⟩, h4⟩
    · obtain ⟨hb, hs⟩ := inv.curBound n h1
      refine ⟨hb, ?_⟩
      cases hx : (st.solved n
          || (roundGo d (st.lvl + 1) st.solved cur st.visited).lvlNodes.contains n) with
      | false => exact hx
      | true =>
        rcases (hsol n).mp hx with hs' | ⟨_, hany⟩
        · rw [hs] at hs'; exact absurd hs' (by simp)
        · rw [hany] at h3; exact absurd h3 (by simp)
    · obtain ⟨hb, hq⟩ := (wf.chi_mem).mp h4
      have hqUnsolved := (inv.curBound q h1).2
      refine ⟨hb, ?_⟩
      cases hx : (st.solved n
          || (roundGo d (st.lvl + 1) st.solved cur st.visited).lvlNodes.contains n) with
      | false => exact hx
      | true =>
        exfalso
        rcases (hsol n).mp hx with hs' | ⟨_, hany⟩
        · exact absurd (inv.closed n hs' q hq) (by rw [hqUnsolved]; simp)
        · exact absurd (anyUnsolved_eq_false.mp hany q hq) (by rw [hqUnsolved]; simp)
  · -- closed
    intro n hn q hq
    rcases (hsol n).mp hn with hs | ⟨_, hany⟩
    · rw [hsol q]
      exact Or.inl (inv.closed n hs q hq)
    · rw [hsol q]
      exact Or.inl (anyUnsolved_eq_false.mp hany q hq)
  · -- front
    intro n hn hns hpar
    have hns' : (st.solved n
        || (roundGo d (st.lvl + 1) st.solved cur st.visited).lvlNodes.contains n) = false := hns
    have hpar' : ∀ q ∈ d.par n, (st.solved q
        || (roundGo d (st.lvl + 1) st.solved cur st.visited).lvlNodes.contains q) = true := hpar
    rw [hnxt n]
    have hnsOld : st.solved n = false := by
      cases hx : st.solved n with
      | false => rfl
      | true =>
        exfalso
        have : (st.solved n
            || (roundGo d (st.lvl + 1) st.solved cur st.visited).lvlNodes.contains n) = true :=
          (hsol n).mpr (Or.inl hx)
        rw [hns'] at this
        exact absurd this (by simp)
    have hnNotPlaced : ¬ (n ∈ st.current ∧ anyUnsolved d st.solved n = false) := by
      intro hpl
      have : (st.solved n
          || (roundGo d (st.lvl + 1) st.solved cur st.visited).lvlNodes.contains n) = true :=
        (hsol n).mpr (Or.inr hpl)
      rw [hns'] at this
      exact absurd this (by simp)
    by_cases hall : ∀ q ∈ d.par n, st.solved q = true
    · exfalso
      exact hnNotPlaced ⟨inv.front n hn hnsOld hall, anyUnsolved_eq_false.mpr hall⟩
    · push_neg at hall
      obtain ⟨q, hq, hqns⟩ := hall
      have hqns' : st.solved q = false := by
        cases hx : st.solved q with
        | false => rfl
        | true => exact absurd hx hqns
      have hqsolved' := hpar' q hq
      rcases (hsol q).mp hqsolved' with hs | hpl
      · exact absurd hs hqns
      · exact Or.inr ⟨q, hpl, wf.chiFull n hn q hq⟩
  · -- visLt
    intro j
    show (roundGo d (st.lvl + 1) st.solved cur st.visited).visited j ≤ st.lvl + 1
    rw [roundGo_visited]
    by_cases hj : j ∈ cur
    · rw [if_pos hj]
    · rw [if_neg hj]
      have := inv.visLt j
      omega
  · -- nodupLvl
    intro k
    show ((st.levels
      ++ [(roundGo d (st.lvl + 1) st.solved cur st.visited).lvlNodes]).getD k []).Nodup
    rw [getD_concat]
    by_cases hk1 : k < st.levels.length
    · rw [if_pos hk1]; exact inv.nodupLvl k
    · rw [if_neg hk1]
      by_cases hk2 : k = st.levels.length
      · rw [if_pos hk2]
        exact roundGo_lvl_nodup d (st.lvl + 1) st.solved cur st.visited
      · rw [if_neg hk2]; exact List.nodup_nil
  · -- disjLvl
    intro k₁ k₂ j hk₁ hk₂ hj₁ hj₂
    have hk₁' : k₁ < (st.levels
        ++ [(roundGo d (st.lvl + 1) st.solved cur st.visited).lvlNodes]).length := hk₁
    have hk₂' : k₂ < (st.levels
        ++ [(roundGo d (st.lvl + 1) st.solved cur st.visited).lvlNodes]).length := hk₂
    have hj₁' : j ∈ (st.levels
        ++ [(roundGo d (st.lvl + 1) st.solved cur st.visited).lvlNodes]).getD k₁ [] := hj₁
    have hj₂' : j ∈ (st.levels
        ++ [(roundGo d (st.lvl + 1) st.solved cur st.visited).lvlNodes]).getD k₂ [] := hj₂
    simp only [List.length_append, List.length_cons, List.length_nil] at hk₁' hk₂'
    rw [getD_concat] at hj₁' hj₂'
    by_cases h1 : k₁ < st.levels.length <;> by_cases h2 : k₂ < st.levels.length
    · rw [if_pos h1] at hj₁'
      rw [if_pos h2] at hj₂'
      exact inv.disjLvl k₁ k₂ j h1 h2 hj₁' hj₂'
    · rw [if_pos h1] at hj₁'
      rw [if_neg h2, if_pos (by omega)] at hj₂'
      exact absurd ((inv.agrees j).mpr ⟨k₁, h1, hj₁'⟩) (by rw [hplacedUnsolved j hj₂']; simp)
    · rw [if_neg h1, if_pos (by omega)] at hj₁'
      rw [if_pos h2] at hj₂'
      exact absurd ((inv.agrees j).mpr ⟨k₂, h2, hj₂'⟩) (by rw [hplacedUnsolved j hj₁']; simp)
    · omega
  · -- monoLvl
    intro k j q hj hq
    have hj' : j ∈ (st.levels
        ++ [(roundGo d (st.lvl + 1) st.solved cur st.visited).lvlNodes]).getD k [] := hj
    show ∃ i, i < k ∧ q ∈ (st.levels
        ++ [(roundGo d (st.lvl + 1) st.solved cur st.visited).lvlNodes]).getD i []
    rw [getD_concat] at hj'
    by_cases hk1 : k < st.levels.length
    · rw [if_pos hk1] at hj'
      obtain ⟨i, hik, hqi⟩ := inv.monoLvl k j q hj' hq
      refine ⟨i, hik, ?_⟩
      rw [getD_concat, if_pos (by omega)]
      exact hqi
    · by_cases hk2 : k = st.levels.length
      · rw [if_neg hk1, if_pos hk2] at hj'
        have hany := ((hplaced j).mp hj').2
        have hqsol := anyUnsolved_eq_false.mp hany q hq
        obtain ⟨i, hik, hqi⟩ := (inv.agrees q).mp hqsol
        refine ⟨i, by omega, ?_⟩
        rw [getD_concat, if_pos hik]
        exact hqi
      · rw [if_neg hk1, if_neg hk2] at hj'
        exact absurd hj' (List.not_mem_nil j)

/-- The entry pass establishes the loop invariants. -/
theorem loopInv_init (d : DAG) (wf : d.WF) :
    LoopInv d ⟨0, (entryInit d).1, fun _ => 0, (entryInit d).2.2, [(entryInit d).2.1]⟩ := by
  have hsol : ∀ j, (entryInit d).2.2 j = true ↔ (j < d.nbNodes ∧ d.par j = []) := by
    intro j
    show (decide (j < d.nbNodes) && decide (d.par j = [])) = true ↔ _
    rw [Bool.and_eq_true, decide_eq_true_eq, decide_eq_true_eq]
  have hlvl0 : ∀ j, j ∈ (entryInit d).2.1 ↔ (j < d.nbNodes ∧ d.par j = []) := by
    intro j
    show j ∈ (List.range d.nbNodes).filter (fun i => decide (d.par i = [])) ↔ _
    rw [List.mem_filter, List.mem_range, decide_eq_true_eq]
  have hcur : ∀ n, n ∈ (entryInit d).1 ↔
      ∃ i, (i < d.nbNodes ∧ d.par i = []) ∧ n ∈ d.chi i := by
    intro n
    show n ∈ (List.range d.nbNodes).flatMap (fun i => if d.par i = [] then d.chi i else []) ↔ _
    rw [List.mem_flatMap]
    constructor
    · rintro ⟨i, hi, hn⟩
      by_cases hp : d.par i = []
      · rw [if_pos hp] at hn
        exact ⟨i, ⟨List.mem_range.mp hi, hp⟩, hn⟩
      · rw [if_neg hp] at hn
        exact absurd hn (List.not_mem_nil n)
    · rintro ⟨i, ⟨hi, hp⟩, hn⟩
      exact ⟨i, List.mem_range.mpr hi, by rw [if_pos hp]; exact hn⟩
  refine ⟨?_, ?_, ?_, ?_, ?_, ?_, ?_, ?_⟩
  · intro j
    rw [hsol j]
    constructor
    · intro h
      exact ⟨0, by simp, (hlvl0 j).mpr h⟩
    · rintro ⟨k, hk, hjk⟩
      have hk0 : k = 0 := by simpa using hk
      rw [hk0] at hjk
      exact (hlvl0 j).mp hjk
  · intro n hn
    obtain ⟨i, ⟨hi, hp⟩, hni⟩ := (hcur n).mp hn
    obtain ⟨hnb, hpar⟩ := wf.chi_mem.mp hni
    refine ⟨hnb, ?_⟩
    cases hx : (entryInit d).2.2 n with
    | false => exact hx
    | true =>
      obtain ⟨_, hpn⟩ := (hsol n).mp hx
      rw [hpn] at hpar
      exact absurd hpar (List.not_mem_nil i)
  · intro n hn q hq
    obtain ⟨_, hpn⟩ := (hsol n).mp hn
    rw [hpn] at hq
    exact absurd hq (List.not_mem_nil q)
  · intro n hn hns hpar
    have hns' : (entryInit d).2.2 n = false := hns
    have hpar' : ∀ q ∈ d.par n, (entryInit d).2.2 q = true := hpar
    have hpne : d.par n ≠ [] := by
      intro hpe
      have : (entryInit d).2.2 n = true := (hsol n).mpr ⟨hn, hpe⟩
      rw [hns'] at this
      exact absurd this (by simp)
    obtain ⟨q, hq⟩ := List.exists_mem_of_ne_nil (d.par n) hpne
    have hqsol := hpar' q hq
    obtain ⟨hqb, hqp⟩ := (hsol q).mp hqsol
    rw [hcur n]
    exact ⟨q, ⟨hqb, hqp⟩, wf.chiFull n hn q hq⟩
  · intro j
    exact Nat.le_refl 0
  · intro k
    cases k with
    | zero =>
      show ((entryInit d).2.1).Nodup
      exact (List.nodup_range d.nbNodes).filter _
    | succ k => exact List.nodup_nil
  · intro k₁ k₂ j hk₁ hk₂ _ _
    have h1 : k₁ = 0 := by simpa using hk₁
    have h2 : k₂ = 0 := by simpa using hk₂
    rw [h1, h2]
  · intro k j q hj hq
    cases k with
    | zero =>
      obtain ⟨_, hp⟩ := (hlvl0 j).mp hj
      rw [hp] at hq
      exact absurd hq (List.not_mem_nil q)
    | succ k => exact absurd hj (List.not_mem_nil j)

/-- The set of in-range wires not yet solved: the loop's termination measure. -/
def unsolvedSet (d : DAG) (solved : ℕ → Bool) : Finset ℕ :=
  (Finset.range d.nbNodes).filter (fun j => solved j = false)

/-- If the work list is non-empty, the minimal unsolved node is placed by the
round (the progress argument: its parents have smaller ids, hence are solved
by minimality). -/
theorem min_unsolved_placed (d : DAG) (wf : d.WF) (st : LoopSt) (inv : LoopInv d st)
    (cur : List ℕ) (hcur : ∀ a, a ∈ cur ↔ a ∈ st.current)
    (m : ℕ) (hm : m < d.nbNodes ∧ st.solved m = false)
    (hmin : ∀ k, k < m → ¬ (k < d.nbNodes ∧ st.solved k = false)) :
    m ∈ (roundGo d (st.lvl + 1) st.solved cur st.visited).lvlNodes := by
  have hpar : ∀ q ∈ d.par m, st.solved q = true := by
    intro q hq
    have hqm : q < m := wf.parLt m hm.1 q hq
    cases hx : st.solved q with
    | true => rfl
    | false => exact absurd ⟨by omega, hx⟩ (hmin q hqm)
  have hmem : m ∈ st.current := inv.front m hm.1 hm.2 hpar
  rw [roundGo_lvl_mem]
  exact ⟨(hcur m).mpr hmem, by have := inv.visLt m; omega, anyUnsolved_eq_false.mpr hpar⟩

/-- Master lemma for the round loop: given the invariants and enough fuel, the
loop ends with every in-range node solved and the invariants intact. -/
theorem loopGo_master (d : DAG) (wf : d.WF) (sched : ℕ → List ℕ → List ℕ)
    (hs : ∀ k c, List.Perm (sched k c) c) :
    ∀ (fuel : ℕ) (st : LoopSt), LoopInv d st → (unsolvedSet d st.solved).card ≤ fuel →
      LoopInv d (loopGo d sched fuel st) ∧
      ∀ n, n < d.nbNodes → (loopGo d sched fuel st).solved n = true := by
  intro fuel
  induction fuel with
  | zero =>
    intro st inv hcard
    have hall : ∀ n, n < d.nbNodes → st.solved n = true := by
      intro n hn
      cases hx : st.solved n with
      | true => rfl
      | false =>
        exfalso
        have hmem : n ∈ unsolvedSet d st.solved :=
          Finset.mem_filter.mpr ⟨Finset.mem_range.mpr hn, hx⟩
        have := Finset.card_pos.mpr ⟨n, hmem⟩
        omega
    exact ⟨inv, hall⟩
  | succ fuel ih =>
    intro st inv hcard
    by_cases hc : st.current = []
    · rw [loopGo, if_pos hc]
      refine ⟨inv, fun n hn => ?_⟩
      cases hx : st.solved n with
      | true => rfl
      | false =>
        exfalso
        have hex : ∃ k, k < d.nbNodes ∧ st.solved k = false := ⟨n, hn, hx⟩
        have hmem : Nat.find hex ∈ st.current :=
          inv.front (Nat.find hex) (Nat.find_spec hex).1 (Nat.find_spec hex).2 (by
            intro q hq
            have hqm : q < Nat.find hex := wf.parLt _ (Nat.find_spec hex).1 q hq
            cases hy : st.solved q with
            | true => rfl
            | false => exact absurd ⟨by
                have := (Nat.find_spec hex).1
                omega, hy⟩ (Nat.find_min hex hqm))
        rw [hc] at hmem
        exact absurd hmem (List.not_mem_nil _)
    · rw [loopGo, if_neg hc]
      have hcur : ∀ a, a ∈ sched (st.lvl + 1) st.current ↔ a ∈ st.current :=
        fun a => (hs (st.lvl + 1) st.current).mem_iff
      have inv' := loopInv_step d wf st inv (sched (st.lvl + 1) st.current) hcur
      have hex : ∃ k, k < d.nbNodes ∧ st.solved k = false := by
        obtain ⟨a, ha⟩ := List.exists_mem_of_ne_nil st.current hc
        obtain ⟨h1, h2⟩ := inv.curBound a ha
        exact ⟨a, h1, h2⟩
      have hplacedm := min_unsolved_placed d wf st inv (sched (st.lvl + 1) st.current) hcur
        (Nat.find hex) (Nat.find_spec hex) (fun k hk => Nat.find_min hex hk)
      have hsub : unsolvedSet d (fun j => st.solved j ||
          (roundGo d (st.lvl + 1) st.solved (sched (st.lvl + 1) st.current)
            st.visited).lvlNodes.contains j) ⊆ (unsolvedSet d st.solved).erase (Nat.find hex) := by
        intro x hx
        obtain ⟨hxr, hxs⟩ := Finset.mem_filter.mp hx
        have hxs' : (st.solved x || (roundGo d (st.lvl + 1) st.solved
            (sched (st.lvl + 1) st.current) st.visited).lvlNodes.contains x) = false := hxs
        rw [Bool.or_eq_false_iff] at hxs'
        refine Finset.mem_erase.mpr ⟨?_, Finset.mem_filter.mpr ⟨hxr, hxs'.1⟩⟩
        intro hxm
        rw [hxm] at hxs'
        have : (roundGo d (st.lvl + 1) st.solved (sched (st.lvl + 1) st.current)
            st.visited).lvlNodes.contains (Nat.find hex) = true :=
          List.elem_iff.mpr hplacedm
        rw [this] at hxs'
        exact absurd hxs'.2 (by simp)
      have hmemU : Nat.find hex ∈ unsolvedSet d st.solved :=
        Finset.mem_filter.mpr ⟨Finset.mem_range.mpr (Nat.find_spec hex).1,
          (Nat.find_spec hex).2⟩
      have hcard' : (unsolvedSet d (fun j => st.solved j ||
          (roundGo d (st.lvl + 1) st.solved (sched (st.lvl + 1) st.current)
            st.visited).lvlNodes.contains j)).card ≤ fuel := by
        have h1 := Finset.card_le_card hsub
        rw [Finset.card_erase_of_mem hmemU] at h1
        have h2 := Finset.card_pos.mpr ⟨Nat.find hex, hmemU⟩
        omega
      exact ih _ inv' hcard'

/-- The final state of the canonical `Levels` run satisfies the loop
invariants and has every node solved (placed in some level). -/
theorem levels_master (d : DAG) (wf : d.WF) :
    LoopInv d (loopGo d (fun _ c => c) d.nbNodes
      ⟨0, (entryInit d).1, fun _ => 0, (entryInit d).2.2, [(entryInit d).2.1]⟩) ∧
    ∀ n, n < d.nbNodes → (loopGo d (fun _ c => c) d.nbNodes
      ⟨0, (entryInit d).1, fun _ => 0, (entryInit d).2.2,
        [(entryInit d).2.1]⟩).solved n = true := by
  refine loopGo_master d wf _ (fun _ c => List.Perm.refl c) d.nbNodes _ (loopInv_init d wf) ?_
  calc (unsolvedSet d (entryInit d).2.2).card
      ≤ (Finset.range d.nbNodes).card := Finset.card_filter_le _ _
    _ = d.nbNodes := Finset.card_range _

/-- C6 (confirmed): for a constructor-accepted DAG, every parent of a node in
level `k` of `Levels()` lies in a level with strictly smaller index. -/
theorem c6_parents_in_earlier_levels (d : DAG) (wf : d.WF) :
    ∀ k j q, j ∈ (d.Levels).getD k [] → q ∈ d.par j →
      ∃ i, i < k ∧ q ∈ (d.Levels).getD i [] := by
  obtain ⟨inv, _⟩ := levels_master d wf
  intro k j q hj hq
  unfold DAG.Levels LevelsSched at hj ⊢
  rw [getD_map_sort] at hj
  have hj' := (List.perm_insertionSort _ _).mem_iff.mp hj
  obtain ⟨i, hik, hqi⟩ := inv.monoLvl k j q hj' hq
  refine ⟨i, hik, ?_⟩
  rw [getD_map_sort]
  exact (List.perm_insertionSort _ _).mem_iff.mpr hqi

/-- The fork/join test DAG is constructor-accepted. -/
theorem dEx_wf : dEx.WF :=
  ⟨by decide, by decide, by decide, by decide, by decide⟩

/-- Witness for C6 on the fork/join DAG. -/
theorem c6_parents_in_earlier_levels_witness :
    dEx.WF ∧ (∀ k j q, j ∈ (dEx.Levels).getD k [] → q ∈ dEx.par j →
      ∃ i, i < k ∧ q ∈ (dEx.Levels).getD i []) :=
  ⟨dEx_wf, c6_parents_in_earlier_levels dEx dEx_wf⟩

/-- C7 (confirmed): for a constructor-accepted DAG, every added node appears
in exactly one level of `Levels()` — it is in some level, exactly once there,
and in no other level. -/
theorem c7_every_node_in_exactly_one_level (d : DAG) (wf : d.WF) :
    ∀ n, n < d.nbNodes →
      ∃ k, k < (d.Levels).length ∧ n ∈ (d.Levels).getD k [] ∧
        ((d.Levels).getD k []).count n = 1 ∧
        ∀ i, i < (d.Levels).length → i ≠ k → n ∉ (d.Levels).getD i [] := by
  obtain ⟨inv, hall⟩ := levels_master d wf
  intro n hn
  obtain ⟨k, hk, hnk⟩ := (inv.agrees n).mp (hall n hn)
  refine ⟨k, ?_, ?_, ?_, ?_⟩
  · unfold DAG.Levels LevelsSched
    rw [List.length_map]
    exact hk
  · unfold DAG.Levels LevelsSched
    rw [getD_map_sort]
    exact (List.perm_insertionSort _ _).mem_iff.mpr hnk
  · unfold DAG.Levels LevelsSched
    rw [getD_map_sort, (List.perm_insertionSort _ _).count_eq]
    exact List.count_eq_one_of_mem (inv.nodupLvl k) hnk
  · intro i hi hik
    unfold DAG.Levels LevelsSched at hi ⊢
    rw [List.length_map] at hi
    rw [getD_map_sort]
    intro hmem
    have hmem' := (List.perm_insertionSort _ _).mem_iff.mp hmem
    exact hik (inv.disjLvl i k n hi hk hmem' hnk)

/-- Witness for C7 on the fork/join DAG. -/
theorem c7_every_node_in_exactly_one_level_witness :
    dEx.WF ∧ (∀ n, n < dEx.nbNodes →
      ∃ k, k < (dEx.Levels).length ∧ n ∈ (dEx.Levels).getD k [] ∧
        ((dEx.Levels).getD k []).count n = 1 ∧
        ∀ i, i < (dEx.Levels).length → i ≠ k → n ∉ (dEx.Levels).getD i []) :=
  ⟨dEx_wf, c7_every_node_in_exactly_one_level dEx dEx_wf⟩

/-! The PLONK setup permutation
(`internal/backend/bw6-761/plonk/setup.go`, `buildPermutation`). -/

/-- The `l∥r∥o` layout built by `buildPermutation`: in the first third,
position `i < nbPublic` holds the placeholder wire `i` and position
`nbPublic + i` holds constraint `i`'s `L` wire; the second and third thirds
hold the `R` and `O` wires at the same offset; every position the loops do not
write keeps Go's zero value `0`.  `s` is `pk.Domain[0].Cardinality`
(`sizeSolution`), and the layout has `3·s` positions. -/
def lroVal {p : ℕ} (spr : SparseR1CS p) (s i : ℕ) : ℕ :=
  if i < s then
    if i < spr.nbPublicVariables then i
    else (spr.constraints.getD (i - spr.nbPublicVariables) defaultC).L.wireID
  else if i < 2 * s then
    if i - s < spr.nbPublicVariables then 0
    else (spr.constraints.getD (i - s - spr.nbPublicVariables) defaultC).R.wireID
  else
    if i - 2 * s < spr.nbPublicVariables then 0
    else (spr.constraints.getD (i - 2 * s - spr.nbPublicVariables) defaultC).O.wireID

/-- One iteration of `buildPermutation`'s scanning loop at position `i`: if
the wire id at `i` was already seen, record the last position it was seen at
into the permutation; then remember `i` as the last position of that wire
id.  The state is `(pk.Permutation, cycle)`, both initialised to `-1`. -/
def permStep {p : ℕ} (spr : SparseR1CS p) (s : ℕ) (st : (ℕ → ℤ) × (ℕ → ℤ)) (i : ℕ) :
    (ℕ → ℤ) × (ℕ → ℤ) :=
  (if st.2 (lroVal spr s i) ≠ -1 then Function.update st.1 i (st.2 (lroVal spr s i)) else st.1,
   Function.update st.2 (lroVal spr s i) (i : ℤ))

/-- The scanning loop of `buildPermutation` over all `3·s` positions. -/
def permScan {p : ℕ} (spr : SparseR1CS p) (s : ℕ) : (ℕ → ℤ) × (ℕ → ℤ) :=
  (List.range (3 * s)).foldl (permStep spr s) (fun _ => -1, fun _ => -1)

/-- `buildPermutation`: after the scan, the completion loop replaces every
remaining `-1` entry by `cycle[lro[i]]` (the last position of that wire id).
Positions outside the `3·s`-sized array do not exist in Go and are mapped to
`-1` here. -/
def buildPermutation {p : ℕ} (spr : SparseR1CS p) (s : ℕ) : ℕ → ℤ := fun i =>
  if i < 3 * s then
    (if (permScan spr s).1 i = -1 then (permScan spr s).2 (lroVal spr s i)
     else (permScan spr s).1 i)
  else -1

/-- Largest position `j < m` with `f j = w`, if any. -/
def lastBelow (f : ℕ → ℕ) (w : ℕ) : ℕ → Option ℕ
  | 0 => none
  | m + 1 => if f m = w then some m else lastBelow f w m

theorem lastBelow_spec (f : ℕ → ℕ) (w : ℕ) : ∀ m j, lastBelow f w m = some j →
    j < m ∧ f j = w ∧ ∀ t, j < t → t < m → f t ≠ w := by
  intro m
  induction m with
  | zero => intro j h; exact absurd h (by simp [lastBelow])
  | succ m ih =>
    intro j h
    rw [lastBelow] at h
    by_cases hf : f m = w
    · rw [if_pos hf] at h
      injection h with h
      subst h
      exact ⟨by omega, hf, fun t ht1 ht2 => by omega⟩
    · rw [if_neg hf] at h
      obtain ⟨h1, h2, h3⟩ := ih j h
      refine ⟨by omega, h2, fun t ht1 ht2 => ?_⟩
      by_cases htm : t = m
      · rw [htm]; exact hf
      · exact h3 t ht1 (by omega)

theorem lastBelow_none (f : ℕ → ℕ) (w : ℕ) : ∀ m, lastBelow f w m = none →
    ∀ t, t < m → f t ≠ w := by
  intro m
  induction m with
  | zero => intro _ t ht; omega
  | succ m ih =>
    intro h t ht
    rw [lastBelow] at h
    by_cases hf : f m = w
    · rw [if_pos hf] at h; exact absurd h (by simp)
    · rw [if_neg hf] at h
      by_cases htm : t = m
      · rw [htm]; exact hf
      · exact ih h t (by omega)

theorem lastBelow_isSome (f : ℕ → ℕ) (w : ℕ) (m i : ℕ) (hi : i < m) (hf : f i = w) :
    ∃ j, lastBelow f w m = some j ∧ i ≤ j := by
  cases h : lastBelow f w m with
  | none => exact absurd hf (lastBelow_none f w m h i hi)
  | some j =>
    obtain ⟨h1, h2, h3⟩ := lastBelow_spec f w m j h
    refine ⟨j, rfl, ?_⟩
    by_contra hij
    exact h3 i (by omega) hi hf

/-- If `v` is in class `w`, below `m`, and nothing of class `w` lies strictly
between `v` and `m`, then `v` is the last class position below `m`. -/
theorem lastBelow_eq_some (f : ℕ → ℕ) (w : ℕ) (m v : ℕ) (hv : v < m) (hfv : f v = w)
    (hmax : ∀ t, v < t → t < m → f t ≠ w) : lastBelow f w m = some v := by
  obtain ⟨j, hj, hij⟩ := lastBelow_isSome f w m v hv hfv
  obtain ⟨h1, h2, _⟩ := lastBelow_spec f w m j hj
  have : j = v := by
    by_contra hne
    exact hmax j (by omega) h1 h2
  rw [hj, this]

/-- Characterization of the scanning loop: after processing positions
`0, …, m-1`, `cycle[w]` holds the last position of class `w` (or `-1`), and
`Permutation[i]` holds the previous position of `i`'s class (or `-1`). -/
theorem permScan_spec {p : ℕ} (spr : SparseR1CS p) (s : ℕ) : ∀ m,
    (∀ w, ((List.range m).foldl (permStep spr s) (fun _ => -1, fun _ => -1)).2 w
      = (match lastBelow (lroVal spr s) w m with | some j => (j : ℤ) | none => -1)) ∧
    (∀ i, ((List.range m).foldl (permStep spr s) (fun _ => -1, fun _ => -1)).1 i
      = if i < m then (match lastBelow (lroVal spr s) (lroVal spr s i) i with
          | some j => (j : ℤ) | none => -1) else -1) := by
  intro m
  induction m with
  | zero =>
    constructor
    · intro w; rfl
    · intro i; rw [if_neg (by omega)]; rfl
  | succ m ih =>
    obtain ⟨ih2, ih1⟩ := ih
    have hrng : List.range (m + 1) = List.range m ++ [m] := List.range_succ m
    rw [hrng, List.foldl_append]
    set st := (List.range m).foldl (permStep spr s)
      ((fun _ => (-1 : ℤ)), (fun _ => (-1 : ℤ))) with hst
    simp only [List.foldl_cons, List.foldl_nil]
    have h1 : (permStep spr s st m).1 = if st.2 (lroVal spr s m) ≠ -1
        then Function.update st.1 m (st.2 (lroVal spr s m)) else st.1 := rfl
    have h2 : (permStep spr s st m).2 = Function.update st.2 (lroVal spr s m) (m : ℤ) := rfl
    constructor
    · intro w
      rw [h2]
      by_cases hw : lroVal spr s m = w
      · rw [hw, Function.update_same, lastBelow, if_pos hw]
      · rw [Function.update_noteq (fun he => hw he.symm), ih2 w, lastBelow, if_neg hw]
    · intro i
      rw [h1]
      by_cases him : i = m
      · subst him
        by_cases hc : st.2 (lroVal spr s i) = -1
        · rw [if_neg (not_not_intro hc), ih1 i, if_neg (by omega), if_pos (by omega)]
          rw [ih2 (lroVal spr s i)] at hc
          cases hlb : lastBelow (lroVal spr s) (lroVal spr s i) i with
          | none => rfl
          | some j =>
            rw [hlb] at hc
            simp at hc
        · rw [if_pos hc, Function.update_same, ih2 (lroVal spr s i), if_pos (by omega)]
      · have hsp : (if st.2 (lroVal spr s m) ≠ -1
            then Function.update st.1 m (st.2 (lroVal spr s m)) else st.1) i = st.1 i := by
          split
          · exact Function.update_noteq him _ _
          · rfl
        rw [hsp, ih1 i]
        by_cases hi : i < m
        · rw [if_pos hi, if_pos (by omega)]
        · rw [if_neg hi, if_neg (by omega)]

/-- Cyclic predecessor of position `i` inside its `f`-class over `[0, N)`: the
previous class position below `i`, or, for the first class position, the last
class position below `N` (falling back to `i` when the class is empty, which
cannot happen for `i < N`). -/
def cyclicPred (f : ℕ → ℕ) (N i : ℕ) : ℕ :=
  match lastBelow f (f i) i with
  | some j => j
  | none => match lastBelow f (f i) N with
    | some j => j
    | none => i

/-- On the array positions `i < 3·s`, `buildPermutation` computes the cyclic
predecessor of `i` within its wire-id class. -/
theorem buildPermutation_eq {p : ℕ} (spr : SparseR1CS p) (s i : ℕ) (hi : i < 3 * s) :
    buildPermutation spr s i = (cyclicPred (lroVal spr s) (3 * s) i : ℤ) := by
  obtain ⟨h2, h1⟩ := permScan_spec spr s (3 * s)
  have hp1 := h1 i
  rw [if_pos hi] at hp1
  have hp2 := h2 (lroVal spr s i)
  have hb : buildPermutation spr s i =
      if (permScan spr s).1 i = -1 then (permScan spr s).2 (lroVal spr s i)
      else (permScan spr s).1 i := by
    unfold buildPermutation
    rw [if_pos hi]
  cases hlb : lastBelow (lroVal spr s) (lroVal spr s i) i with
  | some j =>
    rw [hlb] at hp1
    have hp1' : (permScan spr s).1 i = (j : ℤ) := hp1
    have hcp : cyclicPred (lroVal spr s) (3 * s) i = j := by
      unfold cyclicPred
      rw [hlb]
    have hne : ¬((permScan spr s).1 i = -1) := by rw [hp1']; omega
    rw [hb, hcp, if_neg hne, hp1']
  | none =>
    rw [hlb] at hp1
    have hp1' : (permScan spr s).1 i = -1 := hp1
    obtain ⟨j, hj, _⟩ := lastBelow_isSome (lroVal spr s) (lroVal spr s i) (3 * s) i hi rfl
    rw [hj] at hp2
    have hp2' : (permScan spr s).2 (lroVal spr s i) = (j : ℤ) := hp2
    have hcp : cyclicPred (lroVal spr s) (3 * s) i = j := by
      unfold cyclicPred
      rw [hlb, hj]
    rw [hb, hcp, if_pos hp1', hp2']

theorem cyclicPred_lt (f : ℕ → ℕ) (N i : ℕ) (hi : i < N) : cyclicPred f N i < N := by
  unfold cyclicPred
  cases hlb : lastBelow f (f i) i with
  | some j =>
    have h := (lastBelow_spec f (f i) i j hlb).1
    show j < N
    omega
  | none =>
    cases hlb2 : lastBelow f (f i) N with
    | some j =>
      show j < N
      exact (lastBelow_spec f (f i) N j hlb2).1
    | none =>
      obtain ⟨j, hj, _⟩ := lastBelow_isSome f (f i) N i hi rfl
      rw [hj] at hlb2
      exact absurd hlb2 (by simp)

theorem cyclicPred_class (f : ℕ → ℕ) (N i : ℕ) : f (cyclicPred f N i) = f i := by
  unfold cyclicPred
  cases hlb : lastBelow f (f i) i with
  | some j => exact (lastBelow_spec f (f i) i j hlb).2.1
  | none =>
    cases hlb2 : lastBelow f (f i) N with
    | some j => exact (lastBelow_spec f (f i) N j hlb2).2.1
    | none => rfl

theorem cyclicPred_inj (f : ℕ → ℕ) (N i₁ i₂ : ℕ) (h1 : i₁ < N) (h2 : i₂ < N)
    (heq : cyclicPred f N i₁ = cyclicPred f N i₂) : i₁ = i₂ := by
  have key : ∀ a b, a < N → b < N → a < b → cyclicPred f N a = cyclicPred f N b → False := by
    intro a b _ hb hab he
    have hfab : f a = f b := by
      rw [← cyclicPred_class f N a, ← cyclicPred_class f N b, he]
    cases hlb : lastBelow f (f b) b with
    | none => exact lastBelow_none f (f b) b hlb a hab hfab
    | some j =>
      obtain ⟨hj1, hj2, hj3⟩ := lastBelow_spec f (f b) b j hlb
      have haj : a ≤ j := by
        by_contra hc
        exact hj3 a (by omega) hab hfab
      have hcb : cyclicPred f N b = j := by
        unfold cyclicPred
        rw [hlb]
      rw [hcb] at he
      cases hla : lastBelow f (f a) a with
      | some j' =>
        have hca : cyclicPred f N a = j' := by
          unfold cyclicPred
          rw [hla]
        rw [hca] at he
        have := (lastBelow_spec f (f a) a j' hla).1
        omega
      | none =>
        obtain ⟨j2, hj2', hij2⟩ := lastBelow_isSome f (f a) N b hb hfab.symm
        have hca : cyclicPred f N a = j2 := by
          unfold cyclicPred
          rw [hla, hj2']
        rw [hca] at he
        omega
  rcases Nat.lt_trichotomy i₁ i₂ with h | h | h
  · exact (key i₁ i₂ h1 h2 h heq).elim
  · exact h
  · exact (key i₂ i₁ h2 h1 h heq.symm).elim

theorem cyclicPred_surj (f : ℕ → ℕ) (N v : ℕ) (hv : v < N) :
    ∃ i, i < N ∧ cyclicPred f N i = v := by
  by_cases hnext : ∃ t, v < t ∧ t < N ∧ f t = f v
  · refine ⟨Nat.find hnext, (Nat.find_spec hnext).2.1, ?_⟩
    have hts := Nat.find_spec hnext
    have hft : f (Nat.find hnext) = f v := hts.2.2
    have hlb : lastBelow f (f (Nat.find hnext)) (Nat.find hnext) = some v := by
      rw [hft]
      refine lastBelow_eq_some f (f v) (Nat.find hnext) v hts.1 rfl ?_
      intro u hu1 hu2 hfu
      exact Nat.find_min hnext hu2 ⟨hu1, by omega, hfu⟩
    unfold cyclicPred
    rw [hlb]
  · push_neg at hnext
    have hex : ∃ u, f u = f v := ⟨v, rfl⟩
    have hm_le : Nat.find hex ≤ v := Nat.find_min' hex rfl
    have hfm : f (Nat.find hex) = f v := Nat.find_spec hex
    refine ⟨Nat.find hex, by omega, ?_⟩
    have hlbm : lastBelow f (f (Nat.find hex)) (Nat.find hex) = none := by
      cases h : lastBelow f (f (Nat.find hex)) (Nat.find hex) with
      | none => rfl
      | some j' =>
        obtain ⟨hj1, hj2, _⟩ := lastBelow_spec f _ _ j' h
        exact absurd (hj2.trans hfm) (Nat.find_min hex hj1)
    have hlbN : lastBelow f (f (Nat.find hex)) N = some v := by
      rw [hfm]
      exact lastBelow_eq_some f (f v) N v hv rfl (fun t ht1 ht2 => hnext t ht1 ht2)
    unfold cyclicPred
    rw [hlbm, hlbN]

/-- From any class position one can descend, by iterating the cyclic
predecessor, to any class position below it. -/
theorem reach_le (f : ℕ → ℕ) (N : ℕ) : ∀ i, i < N → ∀ j, j ≤ i → f j = f i →
    ∃ k, (fun x => cyclicPred f N x)^[k] i = j := by
  intro i
  induction i using Nat.strong_induction_on with
  | _ i ih =>
    intro hi j hj hfj
    by_cases hji : j = i
    · exact ⟨0, by rw [hji, Function.iterate_zero_apply]⟩
    · have hjlt : j < i := by omega
      obtain ⟨j₁, hj₁, hjj₁⟩ := lastBelow_isSome f (f i) i j hjlt hfj
      have hcp : cyclicPred f N i = j₁ := by
        unfold cyclicPred
        rw [hj₁]
      obtain ⟨hj₁i, hfj₁, _⟩ := lastBelow_spec f (f i) i j₁ hj₁
      obtain ⟨k, hk⟩ := ih j₁ hj₁i (by omega) j hjj₁ (hfj.trans hfj₁.symm)
      refine ⟨k + 1, ?_⟩
      rw [Function.iterate_succ_apply]
      show (fun x => cyclicPred f N x)^[k] (cyclicPred f N i) = j
      rw [hcp]
      exact hk

/-- Any two positions of the same class are connected by iterating the cyclic
predecessor: descend to the smallest class position, wrap to the largest, and
descend again. -/
theorem cyclicPred_reach (f : ℕ → ℕ) (N i j : ℕ) (hi : i < N) (hj : j < N)
    (hf : f i = f j) : ∃ k, (fun x => cyclicPred f N x)^[k] i = j := by
  have hex : ∃ u, f u = f i := ⟨i, rfl⟩
  have hm_le : Nat.find hex ≤ i := Nat.find_min' hex rfl
  have hfm : f (Nat.find hex) = f i := Nat.find_spec hex
  obtain ⟨k₁, hk₁⟩ := reach_le f N i hi (Nat.find hex) hm_le hfm
  obtain ⟨M, hM, hjM⟩ := lastBelow_isSome f (f i) N j hj hf.symm
  obtain ⟨hM1, hM2, _⟩ := lastBelow_spec f (f i) N M hM
  have hlbm : lastBelow f (f (Nat.find hex)) (Nat.find hex) = none := by
    cases h : lastBelow f (f (Nat.find hex)) (Nat.find hex) with
    | none => rfl
    | some j' =>
      obtain ⟨hj1, hj2, _⟩ := lastBelow_spec f _ _ j' h
      exact absurd (hj2.trans hfm) (Nat.find_min hex hj1)
  have hstep : cyclicPred f N (Nat.find hex) = M := by
    unfold cyclicPred
    rw [hlbm, hfm, hM]
  obtain ⟨k₂, hk₂⟩ := reach_le f N M hM1 j hjM (hf.symm.trans hM2.symm)
  refine ⟨k₂ + 1 + k₁, ?_⟩
  rw [Function.iterate_add_apply, hk₁, Function.iterate_add_apply]
  show (fun x => cyclicPred f N x)^[k₂] ((fun x => cyclicPred f N x)^[1] (Nat.find hex)) = j
  rw [Function.iterate_one]
  show (fun x => cyclicPred f N x)^[k₂] (cyclicPred f N (Nat.find hex)) = j
  rw [hstep]
  exact hk₂

theorem buildPerm_toNat_eq {p : ℕ} (spr : SparseR1CS p) (s i : ℕ) (hi : i < 3 * s) :
    (buildPermutation spr s i).toNat = cyclicPred (lroVal spr s) (3 * s) i := by
  rw [buildPermutation_eq spr s i hi]
  exact Int.toNat_natCast _

theorem buildPerm_iterate_eq {p : ℕ} (spr : SparseR1CS p) (s : ℕ) : ∀ k i, i < 3 * s →
    (fun x => (buildPermutation spr s x).toNat)^[k] i
      = (fun x => cyclicPred (lroVal spr s) (3 * s) x)^[k] i := by
  intro k
  induction k with
  | zero => intro i _; rfl
  | succ k ih =>
    intro i hi
    rw [Function.iterate_succ_apply, Function.iterate_succ_apply]
    show (fun x => (buildPermutation spr s x).toNat)^[k] ((buildPermutation spr s i).toNat)
      = (fun x => cyclicPred (lroVal spr s) (3 * s) x)^[k] (cyclicPred (lroVal spr s) (3 * s) i)
    rw [buildPerm_toNat_eq spr s i hi]
    exact ih _ (cyclicPred_lt _ _ _ hi)

/-- **C10.**  After `buildPermutation` runs during `Setup` (with
`s = pk.Domain[0].Cardinality`): every entry of `pk.Permutation` is
non-negative, so no `-1` sentinel remains; every entry is below `3·s`, so
every later read `evaluationIDSmallDomain[pk.Permutation[…]]` in
`ccomputePermutationPolynomials` is within the `3·s` elements that
`getIDSmallDomain` allocates; `i ↦ Permutation[i]` is injective and
surjective on `[0, 3·s)`, i.e. a bijection; and its cycles are exactly the
classes of `l∥r∥o` positions referencing the same wire id: following the
permutation preserves the position's wire id, and any two positions with the
same wire id are connected by iterating the permutation.  The hypothesis
records that the constraints fit into one third of the layout, which `Setup`
guarantees by choosing the domain cardinality. -/
theorem c10_buildPermutation_bijection_cycles {p : ℕ} (spr : SparseR1CS p) (s : ℕ)
    (_hfit : spr.nbPublicVariables + spr.constraints.length ≤ s) :
    (∀ i, i < 3 * s → 0 ≤ buildPermutation spr s i) ∧
    (∀ i, i < 3 * s → (buildPermutation spr s i).toNat < 3 * s) ∧
    (∀ i j, i < 3 * s → j < 3 * s →
      buildPermutation spr s i = buildPermutation spr s j → i = j) ∧
    (∀ v, v < 3 * s → ∃ i, i < 3 * s ∧ buildPermutation spr s i = (v : ℤ)) ∧
    (∀ i, i < 3 * s → lroVal spr s (buildPermutation spr s i).toNat = lroVal spr s i) ∧
    (∀ i j, i < 3 * s → j < 3 * s → lroVal spr s i = lroVal spr s j →
      ∃ k, (fun x => (buildPermutation spr s x).toNat)^[k] i = j) := by
  refine ⟨?_, ?_, ?_, ?_, ?_, ?_⟩
  · intro i hi
    rw [buildPermutation_eq spr s i hi]
    exact Int.natCast_nonneg _
  · intro i hi
    rw [buildPerm_toNat_eq spr s i hi]
    exact cyclicPred_lt _ _ _ hi
  · intro i j hi hj he
    rw [buildPermutation_eq spr s i hi, buildPermutation_eq spr s j hj] at he
    exact cyclicPred_inj (lroVal spr s) (3 * s) i j hi hj (Int.natCast_inj.mp he)
  · intro v hv
    obtain ⟨i, hiN, hcp⟩ := cyclicPred_surj (lroVal spr s) (3 * s) v hv
    exact ⟨i, hiN, by rw [buildPermutation_eq spr s i hiN, hcp]⟩
  · intro i hi
    rw [buildPerm_toNat_eq spr s i hi]
    exact cyclicPred_class (lroVal spr s) (3 * s) i
  · intro i j hi hj hf
    obtain ⟨k, hk⟩ := cyclicPred_reach (lroVal spr s) (3 * s) i j hi hj hf
    exact ⟨k, by rw [buildPerm_iterate_eq spr s k i hi]; exact hk⟩

/-- Witness for C10: the concrete system `csA` (one public variable, one
constraint) with domain cardinality `2` satisfies the layout-fit hypothesis,
and the theorem applies. -/
theorem c10_buildPermutation_bijection_cycles_witness :
    (csA.nbPublicVariables + csA.constraints.length ≤ 2) ∧
    ((∀ i, i < 3 * 2 → 0 ≤ buildPermutation csA 2 i) ∧
    (∀ i, i < 3 * 2 → (buildPermutation csA 2 i).toNat < 3 * 2) ∧
    (∀ i j, i < 3 * 2 → j < 3 * 2 →
      buildPermutation csA 2 i = buildPermutation csA 2 j → i = j) ∧
    (∀ v : ℕ, v < 3 * 2 → ∃ i, i < 3 * 2 ∧ buildPermutation csA 2 i = (v : ℤ)) ∧
    (∀ i, i < 3 * 2 → lroVal csA 2 (buildPermutation csA 2 i).toNat = lroVal csA 2 i) ∧
    (∀ i j, i < 3 * 2 → j < 3 * 2 → lroVal csA 2 i = lroVal csA 2 j →
      ∃ k, (fun x => (buildPermutation csA 2 x).toNat)^[k] i = j)) :=
  ⟨by decide, c10_buildPermutation_bijection_cycles csA 2 (by decide)⟩

end Gnark
